import Mathlib

/-!
Shallow embedding of `miner.py` (serial-asc-rules-miner), a level-wise
Apriori-style frequent-itemset miner.

Modelling conventions:
* a Python `str` is a `List Char` (Python strings are sequences of unicode
  code points, compared lexicographically by code point);
* a Python `dict` mapping itemset keys to integer counts is an association
  list `List (PyStr × Nat)` with insertion order preserved and unique keys,
  exactly the observable behaviour of a `dict` of the program;
* `str.split()` (whitespace-tokenising) and `" ".join(...)` are embedded as
  `splitT` and `joinT`;
* Python's `sorted` is embedded as a stable insertion sort; on the inputs the
  program sorts this agrees with Python's stable sort because the comparison
  used is a strict weak order;
* float division in `Rule.confidence` is embedded as exact division in `ℚ`.
-/

namespace Miner

/-- Python strings as lists of code points. -/
abbrev PyStr := List Char

/-- The ASCII whitespace characters `str.split()` splits on
(space, tab, newline, carriage return, vertical tab, form feed). -/
def isSpaceC (c : Char) : Bool :=
  c == ' ' || c == '\t' || c == '\n' || c == '\r' || c == Char.ofNat 11 || c == Char.ofNat 12

/-- Accumulator-based tokeniser: `splitAux cs acc` processes the remaining
characters `cs` with the (reversed) current token `acc`. -/
def splitAux : List Char → List Char → List PyStr
  | [], acc => if acc = [] then [] else [acc.reverse]
  | c :: cs, acc =>
    if isSpaceC c then
      if acc = [] then splitAux cs [] else acc.reverse :: splitAux cs []
    else
      splitAux cs (c :: acc)

/-- Python's `s.split()`: maximal runs of non-whitespace characters. -/
def splitT (s : PyStr) : List PyStr := splitAux s []

/-- Python's `" ".join(items)`. -/
def joinT : List PyStr → PyStr
  | [] => []
  | [t] => t
  | t :: t' :: ts => t ++ ' ' :: joinT (t' :: ts)

/-- A word `str.split()` can produce: nonempty and free of whitespace. -/
def IsTok (s : PyStr) : Prop := s ≠ [] ∧ ∀ c ∈ s, isSpaceC c = false

instance (s : PyStr) : Decidable (IsTok s) := by unfold IsTok; infer_instance

/-- Python's string comparison `a < b`: lexicographic on code points, a
proper prefix is smaller. -/
def strLtB : PyStr → PyStr → Bool
  | [], [] => false
  | [], _ :: _ => true
  | _ :: _, [] => false
  | a :: as, b :: bs => if a < b then true else if b < a then false else strLtB as bs

/-- Insert a string into an ascending list, after everything not greater
than it (the placement a stable ascending sort gives). -/
def insStr (x : PyStr) : List PyStr → List PyStr
  | [] => [x]
  | y :: ys => if strLtB x y then x :: y :: ys else y :: insStr x ys

/-- Python's `sorted` on a list of strings (stable insertion sort;
`strLtB` is a strict total order on the duplicate-free key lists the
program sorts, so this is the unique sorted permutation). -/
def sortStr (l : List PyStr) : List PyStr := l.foldl (fun acc x => insStr x acc) []

/-- A Python `dict` from itemset keys to counts: entries in insertion
order, keys unique. -/
abbrev Table := List (PyStr × Nat)

/-- Key lookup, `d[key]` / `d.get(key)`. -/
def lookupT : Table → PyStr → Option Nat
  | [], _ => none
  | (k, v) :: t, key => if k = key then some v else lookupT t key

/-- Python's `key in d`. -/
def containsT (t : Table) (key : PyStr) : Bool := (lookupT t key).isSome

/-- The keys of the table, in insertion order (`list(d)`). -/
def keysT (t : Table) : List PyStr := t.map Prod.fst

/-- Python's `d[key] = 0`: overwrite when present, append when absent. -/
def insert0 : Table → PyStr → Table
  | [], key => [(key, 0)]
  | (k, v) :: t, key => if k = key then (k, 0) :: t else (k, v) :: insert0 t key

/-- Increment the entry at `key` by one (`d[key] += 1` for a present key);
a table without the key is returned unchanged. -/
def bumpT : Table → PyStr → Table
  | [], _ => []
  | (k, v) :: t, key => if k = key then (k, v + 1) :: t else (k, v) :: bumpT t key

/-- The global minimum-support threshold of `miner.py`. -/
def FREQ_THRES : Nat := 100

/-- Source `prune`: keep exactly the entries whose count meets `FREQ_THRES`
(a dict comprehension, so entry order and counts are preserved). -/
def prune (candidates : Table) : Table :=
  candidates.filter (fun e => decide (FREQ_THRES ≤ e.2))

/-- Python's `itertools.combinations(l, k)`, on lists: all length-`k`
sublists of `l` in lexicographic order of positions. -/
def combinations : Nat → List PyStr → List (List PyStr)
  | 0, _ => [[]]
  | _ + 1, [] => []
  | k + 1, x :: xs => (combinations k xs).map (fun c => x :: c) ++ combinations (k + 1) xs

/-- The `while` loop of `make_candidates`: the length of the common prefix
of `xs` and `ys`, capped at `p` and at both lengths. -/
def lcpLen : Nat → List PyStr → List PyStr → Nat
  | 0, _, _ => 0
  | _ + 1, [], _ => 0
  | _ + 1, _, [] => 0
  | p + 1, x :: xs, y :: ys => if x = y then lcpLen p xs ys + 1 else 0

/-- One inner-loop step of `make_candidates` on the pair of keys
`(outer, inner)`: `some` candidate key when the k−1 × k−1 prefix check
passes, else `none`. (When the check passes, the index `len(outer_items)-1`
into `inner_items` is in range for the uniform-size tables the program
builds; out of range, where Python would raise, `getD` returns `[]`.) -/
def candStep (outer inner : PyStr) : Option PyStr :=
  let outer_items := splitT outer
  let pfx := outer_items.length - 1
  let inner_items := splitT inner
  if lcpLen pfx outer_items inner_items = pfx then
    some (joinT (outer_items ++ [inner_items.getD pfx []]))
  else
    none

/-- All pairs `(l[o], l[i])` with `o ≤ i`, outer index major — the index
ranges `for outer in range(0, n): for inner in range(outer, n)`. -/
def upperPairs : List PyStr → List (PyStr × PyStr)
  | [] => []
  | x :: xs => (x :: xs).map (fun y => (x, y)) ++ upperPairs xs

/-- Source `make_candidates`: sort the keys, join every at-or-after pair
passing the k−1 × k−1 prefix check, and record each produced key with
count 0. -/
def make_candidates (prev_frequents : Table) : Table :=
  let freq_list := sortStr (keysT prev_frequents)
  (upperPairs freq_list).foldl
    (fun candidates p =>
      match candStep p.1 p.2 with
      | some key => insert0 candidates key
      | none => candidates)
    []

/-- One transaction of the counting loop at level `k`: for every length-`k`
combination of the line, bump the candidate whose key is its join, when
present. -/
def countLine (t : Table) (k : Nat) (line : List PyStr) : Table :=
  (combinations k line).foldl
    (fun t c => if containsT t (joinT c) then bumpT t (joinT c) else t) t

/-- The level-`k` frequency-counting loop of the pipeline over all lines. -/
def countLevel (cands : Table) (k : Nat) (lines : List (List PyStr)) : Table :=
  lines.foldl (fun t line => countLine t k line) cands

/-- One item of the singles-counting loop: `if item not in singles:
singles[item] = 0` then `singles[item] += 1`. -/
def incrT (t : Table) (key : PyStr) : Table :=
  bumpT (if containsT t key then t else t ++ [(key, 0)]) key

/-- The singles-counting loop: every item occurrence of every line. -/
def singlesOf (lines : List (List PyStr)) : Table :=
  lines.foldl (fun t line => line.foldl incrT t) []

/-- Source class `Rule`: antecedent, consequent, the itemset's frequency
and the antecedent's frequency. -/
structure Rule where
  left : List PyStr
  right : List PyStr
  all_freq : Nat
  left_freq : Nat
deriving DecidableEq

/-- Source `Rule.confidence`: `all_freq / left_freq`, embedded exactly
in `ℚ`. -/
def Rule.confidence (r : Rule) : ℚ := (r.all_freq : ℚ) / (r.left_freq : ℚ)

/-- Source `Rule._cmp`: sign of the confidence difference, then the
joined-antecedent strings compared with the GREATER string ranked smaller. -/
def Rule.cmp (a b : Rule) : Int :=
  if a.confidence - b.confidence < 0 then -1
  else if 0 < a.confidence - b.confidence then 1
  else if strLtB (joinT b.left) (joinT a.left) then -1
  else if strLtB (joinT a.left) (joinT b.left) then 1
  else 0

/-- Source `Rule.__lt__`. -/
def Rule.ltb (a b : Rule) : Bool := decide (a.cmp b < 0)

/-- Source `Rule.__le__`. -/
def Rule.leb (a b : Rule) : Bool := decide (a.cmp b ≤ 0)

/-- Source `Rule.__eq__`. -/
def Rule.eqb (a b : Rule) : Bool := decide (a.cmp b = 0)

/-- Insert a rule into an ascending list, after everything not greater
(the placement Python's stable ascending sort gives it). -/
def insRule (x : Rule) : List Rule → List Rule
  | [] => [x]
  | y :: ys => if Rule.ltb x y then x :: y :: ys else y :: insRule x ys

/-- Python's stable ascending `sorted` on rules. -/
def pySorted (l : List Rule) : List Rule := l.foldl (fun acc x => insRule x acc) []

/-- Python's `sorted(l, reverse=True)`: CPython reverses, sorts ascending
stably, reverses back. -/
def pySortedRev (l : List Rule) : List Rule := (pySorted l.reverse).reverse

/-- The lookup `args[len(combination) - 1][" ".join(combination)]` of
`make_rules`; `none` where Python would raise IndexError or KeyError. -/
def lookupArgs (args : List Table) (combination : List PyStr) : Option Nat :=
  match args[combination.length - 1]? with
  | some t => lookupT t (joinT combination)
  | none => none

/-- The nonempty proper combination sizes `range(1, len(items))` with all
their combinations, in loop order. -/
def ruleCombos (items : List PyStr) : List (List PyStr) :=
  (List.range' 1 (items.length - 1)).flatMap (fun i => combinations i items)

/-- The inner loop of `make_rules` for one itemset: one `Rule` per
combination, the complement as right side; `none` when a frequency lookup
fails (where Python would raise). -/
def rulesFor (all_freq : Nat) (args : List Table) (items : List PyStr) :
    List (List PyStr) → Option (List Rule)
  | [] => some []
  | c :: cs =>
    match lookupArgs args c, rulesFor all_freq args items cs with
    | some lf, some rest =>
      some (⟨c, items.filter (fun x => !c.contains x), all_freq, lf⟩ :: rest)
    | _, _ => none

/-- Source `make_rules`: every itemset of the top level, split into items,
yields one rule per nonempty proper combination of its items. -/
def make_rules : Table → List Table → Option (List Rule)
  | [], _ => some []
  | (key, v) :: rest, args =>
    match rulesFor v args (splitT key) (ruleCombos (splitT key)), make_rules rest args with
    | some rs, some more => some (rs ++ more)
    | _, _ => none

/-- Ascending order as Python's sort leaves it: no later element is
strictly below an earlier one. -/
def AscOk (l : List Rule) : Prop := l.Pairwise (fun a b => Rule.ltb b a = false)

/-- Descending order, as `pySortedRev` leaves rules: no earlier element is
strictly below a later one. -/
def DescOk (l : List Rule) : Prop := l.Pairwise (fun a b => Rule.ltb a b = false)

/-- Ascending order for string lists, as `sorted` leaves them. -/
def AscStr (l : List PyStr) : Prop := l.Pairwise (fun a b => strLtB b a = false)

/-- Every entry of the list is a `split()` word. -/
def TokList (l : List PyStr) : Prop := ∀ t ∈ l, IsTok t

instance (l : List PyStr) : Decidable (TokList l) := by unfold TokList; infer_instance

/-- The list is strictly increasing in Python string order: sorted and
duplicate-free. -/
def StrictSorted (l : List PyStr) : Prop := l.Pairwise (fun a b => strLtB a b = true)

instance (l : List PyStr) : Decidable (StrictSorted l) := by
  unfold StrictSorted; infer_instance

/-- A transaction line as the pipeline builds it: sorted, duplicate-free
`split()` words. -/
def GoodLine (line : List PyStr) : Prop := TokList line ∧ StrictSorted line

instance (line : List PyStr) : Decidable (GoodLine line) := by
  unfold GoodLine; infer_instance

/-- Every transaction of the store is a sorted duplicate-free word list. -/
def GoodLines (lines : List (List PyStr)) : Prop := ∀ line ∈ lines, GoodLine line

instance (lines : List (List PyStr)) : Decidable (GoodLines lines) := by
  unfold GoodLines; infer_instance

/-- A canonical itemset key of size `k`: it splits into `k` sorted
duplicate-free words whose join is the key itself. -/
def CanonKey (k : Nat) (key : PyStr) : Prop :=
  (splitT key).length = k ∧ TokList (splitT key) ∧ StrictSorted (splitT key) ∧
    joinT (splitT key) = key

instance (k : Nat) (key : PyStr) : Decidable (CanonKey k key) := by
  unfold CanonKey; infer_instance

/-- Every key of the table is a canonical itemset key of size `k`. -/
def CanonTable (k : Nat) (t : Table) : Prop := ∀ key ∈ keysT t, CanonKey k key

instance (k : Nat) (t : Table) : Decidable (CanonTable k t) := by
  unfold CanonTable; infer_instance

/-- The keys of the table are pairwise distinct (every Python dict
satisfies this). -/
def NodupKeys (t : Table) : Prop := (keysT t).Nodup

instance (t : Table) : Decidable (NodupKeys t) := by unfold NodupKeys; infer_instance

/-- Every count of the table is zero (as `make_candidates` seeds them). -/
def AllZero (t : Table) : Prop := ∀ e ∈ t, e.2 = 0

instance (t : Table) : Decidable (AllZero t) := by unfold AllZero; infer_instance

/-- The support of an itemset: the number of transactions containing every
one of its items. -/
def support (items : List PyStr) (lines : List (List PyStr)) : Nat :=
  lines.countP (fun line => items.all (fun x => line.contains x))

/-- Pruned frequent singles of the pipeline. -/
def singlesT (lines : List (List PyStr)) : Table := prune (singlesOf lines)

/-- Pruned frequent pairs of the pipeline. -/
def pairsT (lines : List (List PyStr)) : Table :=
  prune (countLevel (make_candidates (singlesT lines)) 2 lines)

/-- Pruned frequent triples of the pipeline. -/
def triplesT (lines : List (List PyStr)) : Table :=
  prune (countLevel (make_candidates (pairsT lines)) 3 lines)

/-- The ranked pair-rule list of the pipeline
(`sorted(make_rules(pairs, singles), reverse=True)`). -/
def pairRules (lines : List (List PyStr)) : Option (List Rule) :=
  (make_rules (pairsT lines) [singlesT lines]).map pySortedRev

/-- The ranked triple-rule list of the pipeline
(`sorted(make_rules(triples, singles, pairs), reverse=True)`). -/
def tripleRules (lines : List (List PyStr)) : Option (List Rule) :=
  (make_rules (triplesT lines) [singlesT lines, pairsT lines]).map pySortedRev

/-! ### Order facts about Python string comparison -/

theorem strLtB_nil_right (a : PyStr) : strLtB a [] = false := by
  cases a <;> rfl

theorem strLtB_cons_iff {x y : Char} {xs ys : PyStr} :
    strLtB (x :: xs) (y :: ys) = true ↔ x < y ∨ (x = y ∧ strLtB xs ys = true) := by
  rcases lt_trichotomy x y with h | rfl | h
  · simp [strLtB, h]
  · simp [strLtB, lt_irrefl]
  · simp [strLtB, asymm h, h, ne_of_gt h]

theorem strLtB_irrefl (a : PyStr) : strLtB a a = false := by
  induction a with
  | nil => rfl
  | cons c cs ih => simp [strLtB, lt_irrefl, ih]

theorem strLtB_asymm {a b : PyStr} (h : strLtB a b = true) : strLtB b a = false := by
  induction a generalizing b with
  | nil =>
    cases b with
    | nil => simp [strLtB] at h
    | cons d ds => exact strLtB_nil_right _
  | cons c cs ih =>
    cases b with
    | nil => simp [strLtB_nil_right] at h
    | cons d ds =>
      rw [strLtB_cons_iff] at h
      rcases h with h | ⟨rfl, h⟩
      · rw [Bool.eq_false_iff]
        intro hba
        rw [strLtB_cons_iff] at hba
        rcases hba with hba | ⟨rfl, _⟩
        · exact absurd hba (asymm h)
        · exact lt_irrefl _ h
      · rw [Bool.eq_false_iff]
        intro hba
        rw [strLtB_cons_iff] at hba
        rcases hba with hba | ⟨-, hba⟩
        · exact lt_irrefl _ hba
        · exact absurd (ih h) (by simp [hba])

theorem strLtB_conn {a b : PyStr} (h1 : strLtB a b = false) (h2 : strLtB b a = false) :
    a = b := by
  induction a generalizing b with
  | nil =>
    cases b with
    | nil => rfl
    | cons d ds => simp [strLtB] at h1
  | cons c cs ih =>
    cases b with
    | nil => simp [strLtB] at h2
    | cons d ds =>
      rcases lt_trichotomy c d with hcd | rfl | hcd
      · rw [Bool.eq_false_iff] at h1
        exact absurd (strLtB_cons_iff.mpr (Or.inl hcd)) h1
      · rw [Bool.eq_false_iff] at h1 h2
        have t1 : strLtB cs ds = false := by
          rw [Bool.eq_false_iff]
          intro hx
          exact h1 (strLtB_cons_iff.mpr (Or.inr ⟨rfl, hx⟩))
        have t2 : strLtB ds cs = false := by
          rw [Bool.eq_false_iff]
          intro hx
          exact h2 (strLtB_cons_iff.mpr (Or.inr ⟨rfl, hx⟩))
        rw [ih t1 t2]
      · rw [Bool.eq_false_iff] at h2
        exact absurd (strLtB_cons_iff.mpr (Or.inl hcd)) h2

theorem strLtB_trans {a b c : PyStr} (h1 : strLtB a b = true) (h2 : strLtB b c = true) :
    strLtB a c = true := by
  induction a generalizing b c with
  | nil =>
    cases c with
    | nil => rw [strLtB_nil_right] at h2; exact absurd h2 (by simp)
    | cons z zs => rfl
  | cons x xs ih =>
    cases b with
    | nil => rw [strLtB_nil_right] at h1; exact absurd h1 (by simp)
    | cons y ys =>
      cases c with
      | nil => rw [strLtB_nil_right] at h2; exact absurd h2 (by simp)
      | cons z zs =>
        rw [strLtB_cons_iff] at h1 h2 ⊢
        rcases h1 with h1 | ⟨rfl, h1⟩
        · rcases h2 with h2 | ⟨rfl, h2⟩
          · exact Or.inl (lt_trans h1 h2)
          · exact Or.inl h1
        · rcases h2 with h2 | ⟨rfl, h2⟩
          · exact Or.inl h2
          · exact Or.inr ⟨rfl, ih h1 h2⟩

theorem strLtB_trichotomy (a b : PyStr) :
    a = b ∨ strLtB a b = true ∨ strLtB b a = true := by
  rcases hab : strLtB a b with _ | _
  · rcases hba : strLtB b a with _ | _
    · exact Or.inl (strLtB_conn hab hba)
    · exact Or.inr (Or.inr rfl)
  · exact Or.inr (Or.inl rfl)

theorem strLtB_false_trans {a b c : PyStr} (h1 : strLtB b a = false)
    (h2 : strLtB c b = false) : strLtB c a = false := by
  rw [Bool.eq_false_iff]
  intro hca
  rcases strLtB_trichotomy a b with rfl | hab | hba
  · exact absurd hca (by simp [h2])
  · exact absurd (strLtB_trans hca hab) (by simp [h2])
  · exact absurd hba (by simp [h1])

/-! ### The sign of `Rule._cmp` -/

theorem Rule.cmp_lt_iff (a b : Rule) :
    a.cmp b < 0 ↔
      a.confidence < b.confidence ∨
        (a.confidence = b.confidence ∧ strLtB (joinT b.left) (joinT a.left) = true) := by
  unfold Rule.cmp
  rcases lt_trichotomy a.confidence b.confidence with h | h | h
  · simp [sub_neg.mpr h, h]
  · simp only [h, sub_self, lt_irrefl, if_false, true_and]
    rcases hs : strLtB (joinT b.left) (joinT a.left) with _ | _
    · rcases ho : strLtB (joinT a.left) (joinT b.left) with _ | _ <;> simp
    · simp
  · have h1 : ¬ a.confidence - b.confidence < 0 := by
      simp only [sub_neg, not_lt]
      exact le_of_lt h
    have h2 : 0 < a.confidence - b.confidence := sub_pos.mpr h
    simp [h1, h2, not_lt_of_lt h, ne_of_gt h]

theorem Rule.cmp_zero_iff (a b : Rule) :
    a.cmp b = 0 ↔ a.confidence = b.confidence ∧ joinT a.left = joinT b.left := by
  unfold Rule.cmp
  rcases lt_trichotomy a.confidence b.confidence with h | h | h
  · simp [sub_neg.mpr h, ne_of_lt h]
  · simp only [h, sub_self, lt_irrefl, if_false, true_and]
    rcases hs : strLtB (joinT b.left) (joinT a.left) with _ | _
    · rcases ho : strLtB (joinT a.left) (joinT b.left) with _ | _
      · simp [strLtB_conn ho hs]
      · simp only [if_true, if_false]
        constructor
        · intro hx; exact absurd hx (by decide)
        · intro hx; rw [hx] at ho; rw [strLtB_irrefl] at ho; exact absurd ho (by decide)
    · simp only [if_true]
      constructor
      · intro hx; exact absurd hx (by decide)
      · intro hx; rw [hx] at hs; rw [strLtB_irrefl] at hs; exact absurd hs (by decide)
  · have h1 : ¬ a.confidence - b.confidence < 0 := by
      simp only [sub_neg, not_lt]
      exact le_of_lt h
    have h2 : 0 < a.confidence - b.confidence := sub_pos.mpr h
    simp [h1, h2, ne_of_gt h]

theorem Rule.cmp_cases (a b : Rule) : a.cmp b = -1 ∨ a.cmp b = 0 ∨ a.cmp b = 1 := by
  unfold Rule.cmp
  split_ifs <;> simp

theorem Rule.cmp_pos_iff (a b : Rule) :
    0 < a.cmp b ↔
      b.confidence < a.confidence ∨
        (a.confidence = b.confidence ∧ strLtB (joinT a.left) (joinT b.left) = true) := by
  constructor
  · intro h
    rcases lt_trichotomy a.confidence b.confidence with hc | hc | hc
    · exact absurd ((Rule.cmp_lt_iff a b).mpr (Or.inl hc)) (by omega)
    · have hz := (Rule.cmp_zero_iff a b).not.mpr
      rcases strLtB_trichotomy (joinT a.left) (joinT b.left) with he | hs | hs
      · exact absurd ((Rule.cmp_zero_iff a b).mpr ⟨hc, he⟩) (by omega)
      · exact Or.inr ⟨hc, hs⟩
      · exact absurd ((Rule.cmp_lt_iff a b).mpr (Or.inr ⟨hc, hs⟩)) (by omega)
    · exact Or.inl hc
  · intro h
    rcases Rule.cmp_cases a b with hv | hv | hv
    · rw [hv]
      exfalso
      rcases (Rule.cmp_lt_iff a b).mp (by omega : a.cmp b < 0) with hx | ⟨hx, hs⟩
      · rcases h with h | ⟨h, -⟩
        · exact absurd hx (not_lt_of_lt h)
        · exact absurd hx (by simp [h])
      · rcases h with h | ⟨-, h⟩
        · exact absurd hx (ne_of_gt h)
        · exact absurd h (by simp [strLtB_asymm hs])
    · rw [hv]
      exfalso
      rcases (Rule.cmp_zero_iff a b).mp hv with ⟨hx, he⟩
      rcases h with h | ⟨-, h⟩
      · exact absurd hx (ne_of_gt h)
      · rw [he] at h
        rw [strLtB_irrefl] at h
        exact absurd h (by decide)
    · omega

theorem Rule.cmp_lt_trans {a b c : Rule} (h1 : a.cmp b < 0) (h2 : b.cmp c < 0) :
    a.cmp c < 0 := by
  rw [Rule.cmp_lt_iff] at h1 h2 ⊢
  rcases h1 with h1 | ⟨he1, hs1⟩
  · rcases h2 with h2 | ⟨he2, hs2⟩
    · exact Or.inl (lt_trans h1 h2)
    · exact Or.inl (he2 ▸ h1)
  · rcases h2 with h2 | ⟨he2, hs2⟩
    · exact Or.inl (he1 ▸ h2)
    · exact Or.inr ⟨he1.trans he2, strLtB_trans hs2 hs1⟩

/-! ### The stable sort on rules -/

theorem Rule.ltb_false_trans {a b c : Rule} (h1 : Rule.ltb b a = false)
    (h2 : Rule.ltb c b = false) : Rule.ltb c a = false := by
  unfold Rule.ltb at h1 h2 ⊢
  rw [decide_eq_false_iff_not] at h1 h2 ⊢
  intro hca
  rcases Rule.cmp_cases b a with hv | hv | hv
  · exact h1 (by omega)
  · rcases (Rule.cmp_zero_iff b a).mp hv with ⟨he, hj⟩
    rcases (Rule.cmp_lt_iff c a).mp hca with hx | ⟨hx, hs⟩
    · exact h2 ((Rule.cmp_lt_iff c b).mpr (Or.inl (he ▸ hx)))
    · exact h2 ((Rule.cmp_lt_iff c b).mpr (Or.inr ⟨hx.trans he.symm, hj ▸ hs⟩))
  · have hab : Rule.cmp a b < 0 := by
      rcases (Rule.cmp_pos_iff b a).mp (by omega) with hx | ⟨hx, hs⟩
      · exact (Rule.cmp_lt_iff a b).mpr (Or.inl hx)
      · exact (Rule.cmp_lt_iff a b).mpr (Or.inr ⟨hx.symm, hs⟩)
    exact h2 (Rule.cmp_lt_trans hca hab)

theorem Rule.cmp_self (a : Rule) : a.cmp a = 0 :=
  (Rule.cmp_zero_iff a a).mpr ⟨rfl, rfl⟩

theorem Rule.cmp_asymm {a b : Rule} (h1 : a.cmp b < 0) (h2 : b.cmp a < 0) : False := by
  have := Rule.cmp_lt_trans h1 h2
  rw [Rule.cmp_self] at this
  omega

theorem mem_insRule {x z : Rule} {l : List Rule} :
    z ∈ insRule x l ↔ z = x ∨ z ∈ l := by
  induction l with
  | nil => simp [insRule]
  | cons y ys ih =>
    cases h : Rule.ltb x y with
    | false => simp only [insRule, h, Bool.false_eq_true, if_false, List.mem_cons, ih]; tauto
    | true => simp only [insRule, h, if_true, List.mem_cons]

theorem insRule_perm (x : Rule) (l : List Rule) : (insRule x l).Perm (x :: l) := by
  induction l with
  | nil => simp [insRule]
  | cons y ys ih =>
    cases h : Rule.ltb x y with
    | false =>
      simp only [insRule, h, Bool.false_eq_true, if_false]
      exact (ih.cons y).trans (List.Perm.swap x y ys)
    | true => simp [insRule, h]

theorem insRule_asc {x : Rule} {l : List Rule} (h : AscOk l) : AscOk (insRule x l) := by
  induction l with
  | nil => simp [insRule, AscOk]
  | cons y ys ih =>
    rcases (List.pairwise_cons.mp h) with ⟨hy, hys⟩
    cases hxy : Rule.ltb x y with
    | false =>
      simp only [insRule, hxy, Bool.false_eq_true, if_false]
      refine List.pairwise_cons.mpr ⟨?_, ih hys⟩
      intro z hz
      rcases mem_insRule.mp hz with rfl | hz
      · exact hxy
      · exact hy z hz
    | true =>
      simp only [insRule, hxy, if_true]
      refine List.pairwise_cons.mpr ⟨?_, h⟩
      intro z hz
      unfold Rule.ltb at hxy ⊢
      rw [decide_eq_true_iff] at hxy
      rw [decide_eq_false_iff_not]
      intro hzx
      rcases List.mem_cons.mp hz with rfl | hz
      · exact Rule.cmp_asymm hxy hzx
      · have hzy := hy z hz
        unfold Rule.ltb at hzy
        rw [decide_eq_false_iff_not] at hzy
        exact hzy (Rule.cmp_lt_trans hzx hxy)

theorem foldl_insRule_perm (l : List Rule) :
    ∀ acc : List Rule, (l.foldl (fun acc x => insRule x acc) acc).Perm (acc ++ l) := by
  induction l with
  | nil => intro acc; simp
  | cons x xs ih =>
    intro acc
    have h1 := ih (insRule x acc)
    have h2 : (insRule x acc ++ xs).Perm ((x :: acc) ++ xs) :=
      (insRule_perm x acc).append_right xs
    have h3 : ((x :: acc) ++ xs).Perm (acc ++ x :: xs) := by
      simp only [List.cons_append]
      exact List.perm_middle.symm
    exact (h1.trans h2).trans h3

theorem pySorted_perm (l : List Rule) : (pySorted l).Perm l := foldl_insRule_perm l []

theorem foldl_insRule_asc (l : List Rule) :
    ∀ acc : List Rule, AscOk acc →
      AscOk (l.foldl (fun acc x => insRule x acc) acc) := by
  induction l with
  | nil => intro acc h; exact h
  | cons x xs ih => intro acc h; exact ih (insRule x acc) (insRule_asc h)

theorem pySorted_asc (l : List Rule) : AscOk (pySorted l) :=
  foldl_insRule_asc l [] (List.Pairwise.nil)

theorem pySortedRev_desc (l : List Rule) : DescOk (pySortedRev l) := by
  unfold pySortedRev DescOk
  rw [List.pairwise_reverse]
  exact pySorted_asc l.reverse

theorem pySortedRev_perm (l : List Rule) : (pySortedRev l).Perm l := by
  unfold pySortedRev
  exact (List.reverse_perm _).trans ((pySorted_perm l.reverse).trans (List.reverse_perm l))

theorem insRule_of_max {x : Rule} {acc : List Rule}
    (h : ∀ y ∈ acc, Rule.ltb x y = false) : insRule x acc = acc ++ [x] := by
  induction acc with
  | nil => rfl
  | cons y ys ih =>
    have hy : Rule.ltb x y = false := h y (List.mem_cons_self y ys)
    simp only [insRule, hy, Bool.false_eq_true, if_false, List.cons_append,
      List.cons.injEq, true_and]
    exact ih (fun z hz => h z (List.mem_cons_of_mem y hz))

theorem foldl_insRule_of_asc (l : List Rule) :
    ∀ acc : List Rule, AscOk l → (∀ x ∈ l, ∀ y ∈ acc, Rule.ltb x y = false) →
      l.foldl (fun acc x => insRule x acc) acc = acc ++ l := by
  induction l with
  | nil => intro acc _ _; simp
  | cons x xs ih =>
    intro acc hasc hle
    rcases List.pairwise_cons.mp hasc with ⟨hx, hxs⟩
    have h1 : insRule x acc = acc ++ [x] :=
      insRule_of_max (hle x (List.mem_cons_self x xs))
    rw [List.foldl_cons, h1, ih (acc ++ [x]) hxs ?_, List.append_assoc]
    · rfl
    · intro z hz y hy
      rcases List.mem_append.mp hy with hy | hy
      · exact hle z (List.mem_cons_of_mem x hz) y hy
      · rw [List.mem_singleton.mp hy]
        exact hx z hz

theorem pySorted_of_asc {l : List Rule} (h : AscOk l) : pySorted l = l := by
  have := foldl_insRule_of_asc l [] h (by intro x _ y hy; cases hy)
  simpa [pySorted] using this

theorem pySortedRev_idem (l : List Rule) :
    pySortedRev (pySortedRev l) = pySortedRev l := by
  unfold pySortedRev
  rw [List.reverse_reverse, pySorted_of_asc (pySorted_asc l.reverse)]

theorem Rule.cmp_zero_symm {a b : Rule} (h : a.cmp b = 0) : b.cmp a = 0 := by
  rcases (Rule.cmp_zero_iff a b).mp h with ⟨h1, h2⟩
  exact (Rule.cmp_zero_iff b a).mpr ⟨h1.symm, h2.symm⟩

theorem Rule.cmp_pos_imp_neg {a b : Rule} (h : 0 < a.cmp b) : b.cmp a < 0 := by
  rcases (Rule.cmp_pos_iff a b).mp h with hc | ⟨hc, hs⟩
  · exact (Rule.cmp_lt_iff b a).mpr (Or.inl hc)
  · exact (Rule.cmp_lt_iff b a).mpr (Or.inr ⟨hc.symm, hs⟩)

/-! ### Claim theorems on pruning and rule ranking -/

/-- C8: `prune` returns exactly the input entries whose count meets
`FREQ_THRES`, with the same counts; its keys are a subset of the input's
keys, and an empty input yields an empty output (the input itself is an
immutable value of the embedding). -/
theorem C8_prune_exact (t : Table) :
    (∀ kv : PyStr × Nat, kv ∈ prune t ↔ kv ∈ t ∧ FREQ_THRES ≤ kv.2) ∧
    (∀ key ∈ keysT (prune t), key ∈ keysT t) ∧
    prune ([] : Table) = [] := by
  refine ⟨?_, ?_, rfl⟩
  · intro kv
    rw [prune, List.mem_filter]
    simp
  · intro key hk
    rcases List.mem_map.mp hk with ⟨e, he, rfl⟩
    exact List.mem_map.mpr ⟨e, List.mem_of_mem_filter he, rfl⟩

/-- C8 witness: `prune` keeps the entry with count 100, drops count 99. -/
theorem C8_prune_exact_witness :
    ((['a'], 99) ∈ prune [(['a'], 99), (['b'], 100)] ↔
      (['a'], 99) ∈ ([(['a'], 99), (['b'], 100)] : Table) ∧ FREQ_THRES ≤ 99) ∧
    ((['b'], 100) ∈ prune [(['a'], 99), (['b'], 100)] ↔
      (['b'], 100) ∈ ([(['a'], 99), (['b'], 100)] : Table) ∧ FREQ_THRES ≤ 100) := by
  constructor
  · exact (C8_prune_exact [(['a'], 99), (['b'], 100)]).1 (['a'], 99)
  · exact (C8_prune_exact [(['a'], 99), (['b'], 100)]).1 (['b'], 100)

/-- C10: the comparison methods of `Rule` depend only on the confidence
value and the space-joined left side: equal ratios and equal joined
antecedents make `__eq__` true and both `__lt__` directions false, whatever
the right sides and the individual frequencies are. -/
theorem C10_cmp_confidence_left_only (a b : Rule)
    (hconf : a.confidence = b.confidence) (hleft : joinT a.left = joinT b.left) :
    a.eqb b = true ∧ a.ltb b = false ∧ b.ltb a = false := by
  have h0 : a.cmp b = 0 := (Rule.cmp_zero_iff a b).mpr ⟨hconf, hleft⟩
  have h1 : b.cmp a = 0 := Rule.cmp_zero_symm h0
  unfold Rule.eqb Rule.ltb
  rw [h0, h1]
  simp

/-- C10 witness: rules 1/2 and 2/4 with the same antecedent but different
consequents and frequencies compare equal. -/
theorem C10_cmp_confidence_left_only_witness :
    Rule.eqb ⟨[['x']], [['y']], 1, 2⟩ ⟨[['x']], [['z']], 2, 4⟩ = true ∧
    Rule.ltb ⟨[['x']], [['y']], 1, 2⟩ ⟨[['x']], [['z']], 2, 4⟩ = false ∧
    Rule.ltb ⟨[['x']], [['z']], 2, 4⟩ ⟨[['x']], [['y']], 1, 2⟩ = false :=
  C10_cmp_confidence_left_only ⟨[['x']], [['y']], 1, 2⟩ ⟨[['x']], [['z']], 2, 4⟩
    (by norm_num [Rule.confidence]) rfl

/-- C9: the `_cmp`-derived comparisons are a strict weak ordering: exactly
one of `a < b`, `b < a`, `a == b` holds, `<` and `==` are transitive, and
ranking is reproducible: re-sorting a ranked list leaves it unchanged. -/
theorem C9_strict_weak_order :
    (∀ a b : Rule,
      (a.ltb b = true ∨ b.ltb a = true ∨ a.eqb b = true) ∧
      ¬(a.ltb b = true ∧ b.ltb a = true) ∧
      ¬(a.ltb b = true ∧ a.eqb b = true) ∧
      ¬(b.ltb a = true ∧ a.eqb b = true)) ∧
    (∀ a b c : Rule, a.ltb b = true → b.ltb c = true → a.ltb c = true) ∧
    (∀ a b c : Rule, a.eqb b = true → b.eqb c = true → a.eqb c = true) ∧
    (∀ l : List Rule, pySortedRev (pySortedRev l) = pySortedRev l) := by
  refine ⟨?_, ?_, ?_, pySortedRev_idem⟩
  · intro a b
    simp only [Rule.ltb, Rule.eqb, decide_eq_true_eq]
    refine ⟨?_, ?_, ?_, ?_⟩
    · rcases Rule.cmp_cases a b with h | h | h
      · exact Or.inl (by omega)
      · exact Or.inr (Or.inr h)
      · exact Or.inr (Or.inl (Rule.cmp_pos_imp_neg (by omega)))
    · rintro ⟨h1, h2⟩
      exact Rule.cmp_asymm h1 h2
    · rintro ⟨h1, h2⟩
      omega
    · rintro ⟨h1, h2⟩
      have := Rule.cmp_zero_symm h2
      omega
  · intro a b c h1 h2
    simp only [Rule.ltb, decide_eq_true_eq] at h1 h2 ⊢
    exact Rule.cmp_lt_trans h1 h2
  · intro a b c h1 h2
    simp only [Rule.eqb, decide_eq_true_eq] at h1 h2 ⊢
    rcases (Rule.cmp_zero_iff a b).mp h1 with ⟨x1, y1⟩
    rcases (Rule.cmp_zero_iff b c).mp h2 with ⟨x2, y2⟩
    exact (Rule.cmp_zero_iff a c).mpr ⟨x1.trans x2, y1.trans y2⟩

unseal Rat.sub Rat.inv Rat.mul Rat.add in
/-- C2 counterexample: two rules of equal confidence 1/1, antecedents
`"a"` and `"b"`; the ranked (descending-sorted) list puts `"a"` — the
lexicographically SMALLER joined antecedent — first, so the rule whose
antecedent string is greater does not appear before the other. -/
theorem C2_tiebreak_counterexample :
    pySortedRev [⟨[['a']], [['b']], 1, 1⟩, ⟨[['b']], [['a']], 1, 1⟩] =
      [⟨[['a']], [['b']], 1, 1⟩, ⟨[['b']], [['a']], 1, 1⟩] ∧
    (⟨[['a']], [['b']], 1, 1⟩ : Rule).confidence =
      (⟨[['b']], [['a']], 1, 1⟩ : Rule).confidence ∧
    strLtB (joinT ([['a']] : List PyStr)) (joinT ([['b']] : List PyStr)) = true := by
  refine ⟨by decide, by norm_num [Rule.confidence], by decide⟩

/-- C2 amended: in the ranked rule list, whenever two Rules have equal
confidence, the earlier one's joined antecedent string is never
lexicographically greater than the later one's — the rule with the SMALLER
(or equal) joined antecedent appears first. -/
theorem C2_tiebreak_amended (l : List Rule) :
    (pySortedRev l).Pairwise
      (fun a b => a.confidence = b.confidence →
        strLtB (joinT b.left) (joinT a.left) = false) := by
  have h := pySortedRev_desc l
  unfold DescOk at h
  refine h.imp ?_
  intro a b hab hconf
  unfold Rule.ltb at hab
  rw [decide_eq_false_iff_not] at hab
  rw [Bool.eq_false_iff]
  intro hs
  exact hab ((Rule.cmp_lt_iff a b).mpr (Or.inr ⟨hconf, hs⟩))

/-- C3 at the failing input: the canonical size-1 table with single key
`"a"` makes `make_candidates` emit the key `"a a"`, which splits into two
equal items — not an itemset of two distinct items. -/
theorem C3_self_join_repeats_item :
    make_candidates [(['a'], 100)] = [(['a', ' ', 'a'], 0)] ∧
    splitT ['a', ' ', 'a'] = [['a'], ['a']] ∧
    ¬ ([['a'], ['a']] : List PyStr).Nodup := by
  refine ⟨by decide, by decide, by decide⟩

/-! ### Splitting and joining canonical keys -/

theorem splitAux_nonspace {t : List Char} (ht : ∀ c ∈ t, isSpaceC c = false) :
    ∀ rest acc, splitAux (t ++ rest) acc = splitAux rest (t.reverse ++ acc) := by
  induction t with
  | nil => intro rest acc; simp
  | cons c cs ih =>
    intro rest acc
    have hc : isSpaceC c = false := ht c (List.mem_cons_self c cs)
    have hcs : ∀ x ∈ cs, isSpaceC x = false := fun x hx => ht x (List.mem_cons_of_mem c hx)
    simp only [List.cons_append, splitAux, hc, Bool.false_eq_true, if_false]
    rw [show splitAux (cs.append rest) (c :: acc) = splitAux rest (cs.reverse ++ c :: acc)
      from ih hcs rest (c :: acc)]
    simp

theorem splitAux_space (rest : PyStr) (acc : List Char) :
    splitAux (' ' :: rest) acc =
      if acc = [] then splitAux rest [] else acc.reverse :: splitAux rest [] := by
  simp [splitAux, isSpaceC]

theorem splitT_joinT {ts : List PyStr} (h : ∀ t ∈ ts, IsTok t) : splitT (joinT ts) = ts := by
  induction ts with
  | nil => rfl
  | cons t ts ih =>
    rcases h t (List.mem_cons_self t ts) with ⟨hne, hsp⟩
    cases ts with
    | nil =>
      have h0 := splitAux_nonspace hsp [] []
      rw [List.append_nil] at h0
      show splitAux t [] = [t]
      rw [h0]
      simp only [splitAux, List.append_nil]
      rw [if_neg (by simpa using hne)]
      simp
    | cons t' ts' =>
      have hrest : ∀ x ∈ t' :: ts', IsTok x := fun x hx => h x (List.mem_cons_of_mem t hx)
      show splitAux (t ++ ' ' :: joinT (t' :: ts')) [] = t :: t' :: ts'
      rw [splitAux_nonspace hsp (' ' :: joinT (t' :: ts')) []]
      rw [List.append_nil, splitAux_space]
      rw [if_neg (by simpa using hne)]
      rw [List.reverse_reverse]
      exact congrArg (t :: ·) (ih hrest)

theorem joinT_inj {ts1 ts2 : List PyStr} (h1 : ∀ t ∈ ts1, IsTok t)
    (h2 : ∀ t ∈ ts2, IsTok t) (h : joinT ts1 = joinT ts2) : ts1 = ts2 := by
  have := splitT_joinT h1
  rw [h, splitT_joinT h2] at this
  exact this.symm

theorem joinT_cons_cons (t : PyStr) {ts : List PyStr} (h : ts ≠ []) :
    joinT (t :: ts) = t ++ ' ' :: joinT ts := by
  cases ts with
  | nil => exact absurd rfl h
  | cons t' ts' => rfl

theorem strLtB_append_cancel (c u v : PyStr) :
    strLtB (c ++ u) (c ++ v) = strLtB u v := by
  induction c with
  | nil => rfl
  | cons d ds ih => simp [strLtB, lt_irrefl, ih]

theorem strLtB_joinT_snoc (p : List PyStr) (a b : PyStr) :
    strLtB (joinT (p ++ [a])) (joinT (p ++ [b])) = strLtB a b := by
  induction p with
  | nil => rfl
  | cons x p ih =>
    have hne : p ++ [a] ≠ [] := by simp
    have hne2 : p ++ [b] ≠ [] := by simp
    rw [List.cons_append, List.cons_append, joinT_cons_cons x hne, joinT_cons_cons x hne2]
    have := strLtB_append_cancel (x ++ [' ']) (joinT (p ++ [a])) (joinT (p ++ [b]))
    simpa using this.trans ih

/-! ### Table lemmas -/

theorem lookupT_eq_none_iff {t : Table} {key : PyStr} :
    lookupT t key = none ↔ key ∉ keysT t := by
  induction t with
  | nil => simp [lookupT, keysT]
  | cons e t ih =>
    obtain ⟨k, v⟩ := e
    by_cases h : k = key
    · subst h
      simp [lookupT, keysT]
    · simp only [lookupT, if_neg h, keysT, List.map_cons, List.mem_cons] at ih ⊢
      rw [ih]
      constructor
      · intro hk
        push_neg
        exact ⟨fun hc => h hc.symm, hk⟩
      · intro hk
        push_neg at hk
        exact hk.2

theorem containsT_iff {t : Table} {key : PyStr} :
    containsT t key = true ↔ key ∈ keysT t := by
  unfold containsT
  rcases h : lookupT t key with _ | v
  · simp [lookupT_eq_none_iff.mp h]
  · have : key ∈ keysT t := by
      by_contra hk
      rw [lookupT_eq_none_iff.mpr hk] at h
      cases h
    simp [this]

theorem lookupT_mem {t : Table} {key : PyStr} {v : Nat} (h : lookupT t key = some v) :
    (key, v) ∈ t := by
  induction t with
  | nil => cases h
  | cons e t ih =>
    obtain ⟨k, w⟩ := e
    by_cases hk : k = key
    · subst hk
      rw [lookupT, if_pos rfl] at h
      cases h
      exact List.mem_cons_self _ _
    · rw [lookupT, if_neg hk] at h
      exact List.mem_cons_of_mem _ (ih h)

theorem lookupT_of_mem {t : Table} {key : PyStr} {v : Nat} (hnd : NodupKeys t)
    (h : (key, v) ∈ t) : lookupT t key = some v := by
  induction t with
  | nil => cases h
  | cons e t ih =>
    obtain ⟨k, w⟩ := e
    rcases List.mem_cons.mp h with he | he
    · cases he
      rw [lookupT, if_pos rfl]
    · have hk : k ≠ key := by
        rintro rfl
        have : k ∈ keysT t := List.mem_map.mpr ⟨(k, v), he, rfl⟩
        exact (List.nodup_cons.mp hnd).1 this
      rw [lookupT, if_neg hk]
      exact ih (List.nodup_cons.mp hnd).2 he

theorem keysT_insert0 (t : Table) (key : PyStr) :
    keysT (insert0 t key) = if key ∈ keysT t then keysT t else keysT t ++ [key] := by
  induction t with
  | nil => simp [insert0, keysT]
  | cons e t ih =>
    obtain ⟨k, v⟩ := e
    by_cases hk : k = key
    · subst hk
      simp [insert0, keysT]
    · simp only [insert0, if_neg hk, keysT, List.map_cons] at ih ⊢
      rw [ih]
      by_cases hmem : key ∈ List.map Prod.fst t
      · rw [if_pos hmem, if_pos (List.mem_cons_of_mem k hmem)]
      · rw [if_neg hmem, if_neg ?_]
        · simp
        · simp only [List.mem_cons]
          rintro (hc | hc)
          · exact hk hc.symm
          · exact hmem hc

theorem lookupT_insert0 (t : Table) (key key' : PyStr) :
    lookupT (insert0 t key) key' = if key' = key then some 0 else lookupT t key' := by
  induction t with
  | nil =>
    by_cases h : key' = key
    · simp [insert0, lookupT, h]
    · have h2 : ¬ key = key' := fun hc => h hc.symm
      simp [insert0, lookupT, h, h2]
  | cons e t ih =>
    obtain ⟨k, v⟩ := e
    by_cases hk : k = key
    · subst hk
      by_cases h : key' = k
      · subst h
        simp [insert0, lookupT]
      · have h2 : ¬ k = key' := fun hc => h hc.symm
        simp [insert0, lookupT, h, h2]
    · by_cases h : k = key'
      · subst h
        have h2 : ¬ k = key := hk
        rw [insert0, if_neg hk, lookupT, if_pos rfl, if_neg h2, lookupT, if_pos rfl]
      · rw [insert0, if_neg hk, lookupT, if_neg h, ih, lookupT, if_neg h]

theorem nodupKeys_insert0 {t : Table} (h : NodupKeys t) (key : PyStr) :
    NodupKeys (insert0 t key) := by
  unfold NodupKeys
  rw [keysT_insert0]
  by_cases hm : key ∈ keysT t
  · rwa [if_pos hm]
  · rw [if_neg hm]
    rw [List.nodup_append]
    refine ⟨h, List.nodup_singleton key, ?_⟩
    intro a ha hb
    rw [List.mem_singleton] at hb
    subst hb
    exact hm ha

theorem mem_insert0 {t : Table} {key : PyStr} {e : PyStr × Nat} (he : e ∈ insert0 t key) :
    e.2 = 0 ∨ e ∈ t := by
  induction t with
  | nil =>
    simp only [insert0, List.mem_singleton] at he
    exact Or.inl (by rw [he])
  | cons f t ih =>
    obtain ⟨k, v⟩ := f
    by_cases hk : k = key
    · rw [insert0, if_pos hk] at he
      rcases List.mem_cons.mp he with rfl | he
      · exact Or.inl rfl
      · exact Or.inr (List.mem_cons_of_mem _ he)
    · rw [insert0, if_neg hk] at he
      rcases List.mem_cons.mp he with rfl | he
      · exact Or.inr (List.mem_cons_self _ _)
      · rcases ih he with h0 | h0
        · exact Or.inl h0
        · exact Or.inr (List.mem_cons_of_mem _ h0)

theorem allZero_insert0 {t : Table} (h : AllZero t) (key : PyStr) :
    AllZero (insert0 t key) := by
  intro e he
  rcases mem_insert0 he with h0 | h0
  · exact h0
  · exact h e h0

theorem keysT_bumpT (t : Table) (key : PyStr) : keysT (bumpT t key) = keysT t := by
  induction t with
  | nil => rfl
  | cons e t ih =>
    obtain ⟨k, v⟩ := e
    by_cases hk : k = key
    · simp [bumpT, hk, keysT]
    · simp only [keysT] at ih
      simp [bumpT, hk, keysT, ih]

theorem lookupT_bumpT (t : Table) (key key' : PyStr) :
    lookupT (bumpT t key) key' =
      if key' = key then (lookupT t key').map (· + 1) else lookupT t key' := by
  induction t with
  | nil => simp [bumpT, lookupT]
  | cons e t ih =>
    obtain ⟨k, v⟩ := e
    by_cases hk : k = key
    · subst hk
      by_cases h : key' = k
      · subst h
        simp [bumpT, lookupT]
      · have h2 : ¬ k = key' := fun hc => h hc.symm
        simp [bumpT, lookupT, h, h2]
    · by_cases h : k = key'
      · subst h
        have h2 : ¬ k = key := hk
        rw [bumpT, if_neg hk, lookupT, if_pos rfl, if_neg h2, lookupT, if_pos rfl]
      · rw [bumpT, if_neg hk, lookupT, if_neg h, ih, lookupT, if_neg h]

/-! ### The string sort of `make_candidates` -/

theorem mem_insStr {x z : PyStr} {l : List PyStr} :
    z ∈ insStr x l ↔ z = x ∨ z ∈ l := by
  induction l with
  | nil => simp [insStr]
  | cons y ys ih =>
    cases h : strLtB x y with
    | false => simp only [insStr, h, Bool.false_eq_true, if_false, List.mem_cons, ih]; tauto
    | true => simp only [insStr, h, if_true, List.mem_cons]

theorem insStr_perm (x : PyStr) (l : List PyStr) : (insStr x l).Perm (x :: l) := by
  induction l with
  | nil => simp [insStr]
  | cons y ys ih =>
    cases h : strLtB x y with
    | false =>
      simp only [insStr, h, Bool.false_eq_true, if_false]
      exact (ih.cons y).trans (List.Perm.swap x y ys)
    | true => simp [insStr, h]

theorem insStr_asc {x : PyStr} {l : List PyStr} (h : AscStr l) : AscStr (insStr x l) := by
  induction l with
  | nil => simp [insStr, AscStr]
  | cons y ys ih =>
    rcases List.pairwise_cons.mp h with ⟨hy, hys⟩
    cases hxy : strLtB x y with
    | false =>
      simp only [insStr, hxy, Bool.false_eq_true, if_false]
      refine List.pairwise_cons.mpr ⟨?_, ih hys⟩
      intro z hz
      rcases mem_insStr.mp hz with rfl | hz
      · exact hxy
      · exact hy z hz
    | true =>
      simp only [insStr, hxy, if_true]
      refine List.pairwise_cons.mpr ⟨?_, h⟩
      intro z hz
      rcases List.mem_cons.mp hz with rfl | hz
      · exact strLtB_asymm hxy
      · have hzy := hy z hz
        rw [Bool.eq_false_iff] at hzy ⊢
        intro hzx
        exact hzy (strLtB_trans hzx hxy)

theorem sortStr_perm (l : List PyStr) : (sortStr l).Perm l := by
  suffices h : ∀ acc : List PyStr, (l.foldl (fun acc x => insStr x acc) acc).Perm (acc ++ l) by
    simpa [sortStr] using h []
  induction l with
  | nil => intro acc; simp
  | cons x xs ih =>
    intro acc
    have h1 := ih (insStr x acc)
    have h2 : (insStr x acc ++ xs).Perm ((x :: acc) ++ xs) :=
      (insStr_perm x acc).append_right xs
    have h3 : ((x :: acc) ++ xs).Perm (acc ++ x :: xs) := by
      simp only [List.cons_append]
      exact List.perm_middle.symm
    exact (h1.trans h2).trans h3

theorem sortStr_asc (l : List PyStr) : AscStr (sortStr l) := by
  suffices h : ∀ acc : List PyStr, AscStr acc → AscStr (l.foldl (fun acc x => insStr x acc) acc) by
    exact h [] List.Pairwise.nil
  induction l with
  | nil => intro acc h; exact h
  | cons x xs ih => intro acc h; exact ih (insStr x acc) (insStr_asc h)

theorem sortStr_strict {l : List PyStr} (h : l.Nodup) : StrictSorted (sortStr l) := by
  have hasc := sortStr_asc l
  have hnd : (sortStr l).Nodup := (sortStr_perm l).nodup_iff.mpr h
  unfold AscStr at hasc
  unfold StrictSorted
  rw [List.pairwise_iff_getElem] at hasc ⊢
  intro i j hi hj hij
  have h1 := hasc i j hi hj hij
  have h2 : (sortStr l)[i] ≠ (sortStr l)[j] := by
    intro he
    rw [List.Nodup] at hnd
    rw [List.pairwise_iff_getElem] at hnd
    exact hnd i j hi hj hij he
  rcases strLtB_trichotomy (sortStr l)[i] (sortStr l)[j] with he | ht | ht
  · exact absurd he h2
  · exact ht
  · exact absurd ht (by simp [h1])

theorem mem_sortStr {x : PyStr} {l : List PyStr} : x ∈ sortStr l ↔ x ∈ l :=
  (sortStr_perm l).mem_iff

/-! ### The index ranges of the candidate loops -/

theorem mem_upperPairs_intro {l : List PyStr} (hs : StrictSorted l) {a b : PyStr}
    (ha : a ∈ l) (hb : b ∈ l) (hab : a = b ∨ strLtB a b = true) :
    (a, b) ∈ upperPairs l := by
  induction l with
  | nil => cases ha
  | cons x xs ih =>
    rcases List.pairwise_cons.mp hs with ⟨hx, hxs⟩
    rcases List.mem_cons.mp ha with rfl | ha
    · exact List.mem_append.mpr (Or.inl (List.mem_map.mpr ⟨b, hb, rfl⟩))
    · have hbxs : b ∈ xs := by
        rcases List.mem_cons.mp hb with hbx | hb2
        · exfalso
          have hax := hx a ha
          rcases hab with he | hab2
          · rw [he, hbx] at hax
            rw [strLtB_irrefl] at hax
            exact absurd hax (by decide)
          · rw [hbx] at hab2
            rw [strLtB_asymm hab2] at hax
            exact absurd hax (by decide)
        · exact hb2
      exact List.mem_append.mpr (Or.inr (ih hxs ha hbxs))

theorem mem_upperPairs_elim {l : List PyStr} (hs : StrictSorted l) {a b : PyStr}
    (h : (a, b) ∈ upperPairs l) :
    a ∈ l ∧ b ∈ l ∧ (a = b ∨ strLtB a b = true) := by
  induction l with
  | nil => cases h
  | cons x xs ih =>
    rcases List.pairwise_cons.mp hs with ⟨hx, hxs⟩
    rcases List.mem_append.mp h with h | h
    · rcases List.mem_map.mp h with ⟨y, hy, he⟩
      have hxa : x = a := congrArg Prod.fst he
      have hyb : y = b := congrArg Prod.snd he
      subst hxa
      subst hyb
      refine ⟨List.mem_cons_self _ _, hy, ?_⟩
      rcases List.mem_cons.mp hy with hyx | hy2
      · exact Or.inl hyx.symm
      · exact Or.inr (hx y hy2)
    · rcases ih hxs h with ⟨h1, h2, h3⟩
      exact ⟨List.mem_cons_of_mem _ h1, List.mem_cons_of_mem _ h2, h3⟩

/-! ### Characterising `make_candidates` -/

theorem lcpLen_eq_iff {p : Nat} {xs ys : List PyStr} (hx : p ≤ xs.length)
    (hy : p ≤ ys.length) : lcpLen p xs ys = p ↔ xs.take p = ys.take p := by
  induction p generalizing xs ys with
  | zero => simp [lcpLen]
  | succ p ih =>
    cases xs with
    | nil => simp at hx
    | cons x xs =>
      cases ys with
      | nil => simp at hy
      | cons y ys =>
        simp only [List.length_cons, Nat.succ_le_succ_iff] at hx hy
        by_cases hxy : x = y
        · subst hxy
          simp only [lcpLen, eq_self_iff_true, if_true, Nat.add_right_cancel_iff,
            List.take_succ_cons, List.cons.injEq, true_and]
          exact ih hx hy
        · simp only [lcpLen, if_neg hxy, List.take_succ_cons, List.cons.injEq]
          constructor
          · intro h
            omega
          · rintro ⟨h, -⟩
            exact absurd h hxy

theorem candStep_canonical {as bs : List PyStr} {k : Nat} (hk : 1 ≤ k)
    (ha : ∀ t ∈ as, IsTok t) (hb : ∀ t ∈ bs, IsTok t)
    (hla : as.length = k) (hlb : bs.length = k) :
    candStep (joinT as) (joinT bs) =
      if as.take (k - 1) = bs.take (k - 1) then
        some (joinT (as ++ [bs.getD (k - 1) []]))
      else none := by
  unfold candStep
  simp only [splitT_joinT ha, splitT_joinT hb]
  rw [hla]
  rw [if_congr (lcpLen_eq_iff (by omega) (by omega)) rfl rfl]

theorem candFold_allZero {acc : Table} (h : AllZero acc) (ps : List (PyStr × PyStr)) :
    AllZero (ps.foldl
      (fun candidates p =>
        match candStep p.1 p.2 with
        | some key => insert0 candidates key
        | none => candidates) acc) := by
  induction ps generalizing acc with
  | nil => exact h
  | cons p ps ih =>
    simp only [List.foldl_cons]
    rcases hcs : candStep p.1 p.2 with _ | key
    · exact ih h
    · exact ih (allZero_insert0 h key)

theorem candFold_nodup {acc : Table} (h : NodupKeys acc) (ps : List (PyStr × PyStr)) :
    NodupKeys (ps.foldl
      (fun candidates p =>
        match candStep p.1 p.2 with
        | some key => insert0 candidates key
        | none => candidates) acc) := by
  induction ps generalizing acc with
  | nil => exact h
  | cons p ps ih =>
    simp only [List.foldl_cons]
    rcases hcs : candStep p.1 p.2 with _ | key
    · exact ih h
    · exact ih (nodupKeys_insert0 h key)

theorem candFold_mem_keysT {key : PyStr} (ps : List (PyStr × PyStr)) (acc : Table) :
    (key ∈ keysT (ps.foldl
      (fun candidates p =>
        match candStep p.1 p.2 with
        | some key => insert0 candidates key
        | none => candidates) acc)) ↔
      key ∈ keysT acc ∨ ∃ p ∈ ps, candStep p.1 p.2 = some key := by
  induction ps generalizing acc with
  | nil => simp
  | cons p ps ih =>
    simp only [List.foldl_cons]
    rcases hcs : candStep p.1 p.2 with _ | k2
    · rw [show (match (none : Option PyStr) with
          | some key => insert0 acc key
          | none => acc) = acc from rfl, ih]
      constructor
      · rintro (h | ⟨q, hq, hqs⟩)
        · exact Or.inl h
        · exact Or.inr ⟨q, List.mem_cons_of_mem _ hq, hqs⟩
      · rintro (h | ⟨q, hq, hqs⟩)
        · exact Or.inl h
        · rcases List.mem_cons.mp hq with rfl | hq
          · rw [hqs] at hcs
            cases hcs
          · exact Or.inr ⟨q, hq, hqs⟩
    · rw [show (match (some k2 : Option PyStr) with
          | some key => insert0 acc key
          | none => acc) = insert0 acc k2 from rfl, ih]
      rw [keysT_insert0]
      by_cases hmem : k2 ∈ keysT acc
      · rw [if_pos hmem]
        constructor
        · rintro (h | ⟨q, hq, hqs⟩)
          · exact Or.inl h
          · exact Or.inr ⟨q, List.mem_cons_of_mem _ hq, hqs⟩
        · rintro (h | ⟨q, hq, hqs⟩)
          · exact Or.inl h
          · rcases List.mem_cons.mp hq with rfl | hq
            · rw [hqs] at hcs
              cases hcs
              exact Or.inl hmem
            · exact Or.inr ⟨q, hq, hqs⟩
      · rw [if_neg hmem]
        constructor
        · rintro (h | ⟨q, hq, hqs⟩)
          · rcases List.mem_append.mp h with h | h
            · exact Or.inl h
            · rw [List.mem_singleton] at h
              exact Or.inr ⟨p, List.mem_cons_self _ _, h ▸ hcs⟩
          · exact Or.inr ⟨q, List.mem_cons_of_mem _ hq, hqs⟩
        · rintro (h | ⟨q, hq, hqs⟩)
          · exact Or.inl (List.mem_append.mpr (Or.inl h))
          · rcases List.mem_cons.mp hq with rfl | hq
            · rw [hqs] at hcs
              cases hcs
              exact Or.inl (List.mem_append.mpr (Or.inr (List.mem_singleton.mpr rfl)))
            · exact Or.inr ⟨q, hq, hqs⟩

theorem allZero_lookupT {t : Table} (h : AllZero t) {key : PyStr} (hk : key ∈ keysT t) :
    lookupT t key = some 0 := by
  rcases hv : lookupT t key with _ | v
  · exact absurd (lookupT_eq_none_iff.mp hv) (by simp [hk])
  · have := h _ (lookupT_mem hv)
    simp only at this
    rw [this]

theorem make_candidates_allZero (t : Table) : AllZero (make_candidates t) :=
  candFold_allZero (by intro e he; cases he) _

theorem make_candidates_nodup (t : Table) : NodupKeys (make_candidates t) :=
  candFold_nodup (by unfold NodupKeys keysT; simp) _

theorem mem_keysT_make_candidates {t : Table} (hnd : NodupKeys t) {key : PyStr} :
    key ∈ keysT (make_candidates t) ↔
      ∃ a b, a ∈ keysT t ∧ b ∈ keysT t ∧ (a = b ∨ strLtB a b = true) ∧
        candStep a b = some key := by
  unfold make_candidates
  rw [candFold_mem_keysT]
  have hstrict : StrictSorted (sortStr (keysT t)) := sortStr_strict hnd
  constructor
  · rintro (h | ⟨p, hp, hps⟩)
    · simp [keysT] at h
    · rcases mem_upperPairs_elim hstrict hp with ⟨h1, h2, h3⟩
      exact ⟨p.1, p.2, mem_sortStr.mp h1, mem_sortStr.mp h2, h3, hps⟩
  · rintro ⟨a, b, ha, hb, hab, hcs⟩
    exact Or.inr ⟨(a, b),
      mem_upperPairs_intro hstrict (mem_sortStr.mpr ha) (mem_sortStr.mpr hb) hab, hcs⟩

/-! ### Combinations -/

theorem mem_combinations {k : Nat} {l c : List PyStr} :
    c ∈ combinations k l ↔ c.Sublist l ∧ c.length = k := by
  induction l generalizing k c with
  | nil =>
    cases k with
    | zero =>
      simp only [combinations, List.mem_singleton]
      constructor
      · rintro rfl
        exact ⟨List.Sublist.refl [], rfl⟩
      · rintro ⟨hs, hl⟩
        exact List.length_eq_zero.mp hl
    | succ k =>
      simp only [combinations, List.not_mem_nil, false_iff, not_and]
      intro hs
      rw [List.sublist_nil.mp hs]
      simp
  | cons x xs ih =>
    cases k with
    | zero =>
      simp only [combinations, List.mem_singleton]
      constructor
      · rintro rfl
        exact ⟨List.nil_sublist _, rfl⟩
      · rintro ⟨hs, hl⟩
        exact List.length_eq_zero.mp hl
    | succ k =>
      simp only [combinations, List.mem_append, List.mem_map]
      constructor
      · rintro (⟨c2, hc2, rfl⟩ | hc)
        · rcases ih.mp hc2 with ⟨hs, hl⟩
          exact ⟨List.cons_sublist_cons.mpr hs, by simp [hl]⟩
        · rcases ih.mp hc with ⟨hs, hl⟩
          exact ⟨hs.cons x, hl⟩
      · rintro ⟨hs, hl⟩
        rcases List.sublist_cons_iff.mp hs with hs2 | ⟨r, rfl, hr⟩
        · exact Or.inr (ih.mpr ⟨hs2, hl⟩)
        · exact Or.inl ⟨r, ih.mpr ⟨hr, by simpa using hl⟩, rfl⟩

theorem nodup_combinations {k : Nat} {l : List PyStr} (h : l.Nodup) :
    (combinations k l).Nodup := by
  induction l generalizing k with
  | nil => cases k <;> simp [combinations]
  | cons x xs ih =>
    rcases List.nodup_cons.mp h with ⟨hx, hxs⟩
    cases k with
    | zero => simp [combinations]
    | succ k =>
      show ((combinations k xs).map (fun c => x :: c) ++ combinations (k + 1) xs).Nodup
      rw [List.nodup_append]
      refine ⟨(ih hxs).map (fun a b hab => by injection hab), ih hxs, ?_⟩
      intro c hc1 hc2
      rcases List.mem_map.mp hc1 with ⟨c2, hc2m, rfl⟩
      rcases mem_combinations.mp hc2 with ⟨hs, hl⟩
      exact hx (hs.subset (List.mem_cons_self x c2))

theorem strictSorted_nodup {l : List PyStr} (h : StrictSorted l) : l.Nodup := by
  unfold StrictSorted at h
  unfold List.Nodup
  refine h.imp ?_
  intro a b hab he
  rw [he] at hab
  rw [strLtB_irrefl] at hab
  exact absurd hab (by decide)

theorem strictSorted_sublist {ks l : List PyStr} (hs : ks.Sublist l)
    (h : StrictSorted l) : StrictSorted ks :=
  List.Pairwise.sublist hs h

theorem sublist_iff_subset_of_strict {ks line : List PyStr} (h1 : StrictSorted ks)
    (h2 : StrictSorted line) : ks.Sublist line ↔ ∀ x ∈ ks, x ∈ line := by
  constructor
  · intro hs x hx
    exact hs.subset hx
  · intro hsub
    induction line generalizing ks with
    | nil =>
      cases ks with
      | nil => exact List.Sublist.refl []
      | cons a ks2 => exact absurd (hsub a (List.mem_cons_self a ks2)) (by simp)
    | cons b line2 ihl =>
      cases ks with
      | nil => exact List.nil_sublist _
      | cons a ks2 =>
        rcases List.pairwise_cons.mp h1 with ⟨ha, hks2⟩
        rcases List.pairwise_cons.mp h2 with ⟨hbl, hline2⟩
        by_cases hab : a = b
        · subst hab
          refine List.cons_sublist_cons.mpr (ihl hks2 hline2 ?_)
          intro x hx
          have hmem := hsub x (List.mem_cons_of_mem a hx)
          rcases List.mem_cons.mp hmem with rfl | hm
          · exact absurd (ha x hx) (by simp [strLtB_irrefl])
          · exact hm
        · have hsub2 : ∀ x ∈ a :: ks2, x ∈ line2 := by
            intro x hx
            have hmem := hsub x hx
            rcases List.mem_cons.mp hmem with hxb | hm
            · exfalso
              rcases List.mem_cons.mp hx with hxa | hx2
              · exact hab (hxa.symm.trans hxb)
              · have hamem := hsub a (List.mem_cons_self a ks2)
                rcases List.mem_cons.mp hamem with hab2 | ha2
                · exact hab hab2
                · have h1 := ha x hx2
                  have h2 := hbl a ha2
                  rw [hxb] at h1
                  exact absurd h1 (by simp [strLtB_asymm h2])
            · exact hm
          exact (ihl h1 hline2 hsub2).cons b
theorem take_concat_getElem {α : Type} (l : List α) (n : Nat) (h : n < l.length) :
    l.take n ++ [l[n]] = l.take (n + 1) := by
  rw [List.take_succ, List.getElem?_eq_getElem h]
  rfl

/-- C1: candidate superset, no false negatives. For a frequency table whose
keys are canonical itemsets of uniform size k ≥ 1, any sorted duplicate-free
itemset S of size k+1 all of whose k-subsets are keys of the table appears in
`make_candidates` under its canonical key, mapped to count 0. -/
theorem C1_candidate_superset (t : Table) (k : Nat) (hk : 1 ≤ k)
    (hnd : NodupKeys t) (hcanon : CanonTable k t)
    (S : List PyStr) (hlen : S.length = k + 1) (htok : TokList S) (hsort : StrictSorted S)
    (hsub : ∀ c ∈ combinations k S, joinT c ∈ keysT t) :
    lookupT (make_candidates t) (joinT S) = some 0 := by
  have hk1 : k - 1 < S.length := by omega
  have hk2 : k < S.length := by omega
  have hA2 : S.take (k - 1) ++ [S[k - 1]] = S.take k := by
    have := take_concat_getElem S (k - 1) hk1
    rwa [show k - 1 + 1 = k by omega] at this
  have hlenp : (S.take (k - 1)).length = k - 1 := by
    rw [List.length_take]
    omega
  have hAlen : (S.take k).length = k := by
    rw [List.length_take]
    omega
  have hBlen : (S.take (k - 1) ++ [S[k]]).length = k := by
    rw [List.length_append, hlenp]
    simp
    omega
  have hAS : S.take k ++ [S[k]] = S := by
    have := take_concat_getElem S k hk2
    rw [this, show k + 1 = S.length from hlen.symm, List.take_length]
  have hAsub : (S.take k).Sublist S := List.take_sublist k S
  have hBsub : (S.take (k - 1) ++ [S[k]]).Sublist S := by
    have h1 : ([S[k]] : List PyStr).Sublist (S.drop k) := by
      rw [List.drop_eq_getElem_cons hk2]
      exact (List.nil_sublist _).cons₂ S[k]
    have h2 : (S.take (k - 1) ++ [S[k]]).Sublist (S.take (k - 1) ++ S.drop (k - 1)) := by
      refine List.Sublist.append_left ?_ _
      have h3 : (S.drop k).Sublist (S.drop (k - 1)) := by
        rw [show k = (k - 1) + 1 by omega, List.drop_add]
        exact List.drop_sublist 1 _
      exact h1.trans h3
    rwa [List.take_append_drop] at h2
  have hAmem : S.take k ∈ combinations k S := mem_combinations.mpr ⟨hAsub, hAlen⟩
  have hBmem : S.take (k - 1) ++ [S[k]] ∈ combinations k S := mem_combinations.mpr ⟨hBsub, hBlen⟩
  have htokA : ∀ x ∈ S.take k, IsTok x := fun x hx => htok x (hAsub.subset hx)
  have htokB : ∀ x ∈ S.take (k - 1) ++ [S[k]], IsTok x := fun x hx => htok x (hBsub.subset hx)
  have hablt : strLtB S[k - 1] S[k] = true := by
    unfold StrictSorted at hsort
    rw [List.pairwise_iff_getElem] at hsort
    exact hsort (k - 1) k hk1 hk2 (by omega)
  have hjoinlt : strLtB (joinT (S.take k)) (joinT (S.take (k - 1) ++ [S[k]])) = true := by
    rw [← hA2, strLtB_joinT_snoc]
    exact hablt
  have hgetD : (S.take (k - 1) ++ [S[k]]).getD (k - 1) [] = S[k] := by
    rw [List.getD_append_right _ _ _ _ (le_of_eq hlenp), hlenp, Nat.sub_self]
    rfl
  have hcs : candStep (joinT (S.take k)) (joinT (S.take (k - 1) ++ [S[k]])) = some (joinT S) := by
    rw [candStep_canonical hk htokA htokB hAlen hBlen]
    rw [if_pos ?_]
    · rw [hgetD, hAS]
    · rw [← hA2]
      rw [List.take_left' hlenp, List.take_left' hlenp]
  exact allZero_lookupT (make_candidates_allZero t)
    ((mem_keysT_make_candidates hnd).mpr
      ⟨joinT (S.take k), joinT (S.take (k - 1) ++ [S[k]]), hsub _ hAmem, hsub _ hBmem,
        Or.inr hjoinlt, hcs⟩)

/-- C1 witness: a concrete size-2 table with all three 2-subsets of
`"a b c"` frequent; the generated candidates contain `"a b c"` at count 0. -/
theorem C1_candidate_superset_witness :
    lookupT (make_candidates [(['a', ' ', 'b'], 100), (['a', ' ', 'c'], 50), (['b', ' ', 'c'], 7)])
      (joinT [['a'], ['b'], ['c']]) = some 0 :=
  C1_candidate_superset [(['a', ' ', 'b'], 100), (['a', ' ', 'c'], 50), (['b', ' ', 'c'], 7)] 2
    (by decide) (by decide) (by decide) [['a'], ['b'], ['c']] (by decide) (by decide) (by decide)
    (by decide)

/-! ### Frequency counting -/

theorem contains_iff_mem {line : List PyStr} {x : PyStr} :
    line.contains x = true ↔ x ∈ line := by
  show line.elem x = true ↔ x ∈ line
  exact List.elem_iff

theorem keysT_countLine (t : Table) (k : Nat) (line : List PyStr) :
    keysT (countLine t k line) = keysT t := by
  unfold countLine
  generalize combinations k line = cs
  induction cs generalizing t with
  | nil => rfl
  | cons c cs ih =>
    simp only [List.foldl_cons]
    by_cases h : containsT t (joinT c) = true
    · rw [if_pos h, ih, keysT_bumpT]
    · rw [if_neg h, ih]

theorem lookupT_countLine (t : Table) (k : Nat) (line : List PyStr) (key : PyStr) :
    lookupT (countLine t k line) key =
      (lookupT t key).map
        (· + (combinations k line).countP (fun c => decide (joinT c = key))) := by
  unfold countLine
  generalize combinations k line = cs
  induction cs generalizing t with
  | nil =>
    rcases h2 : lookupT t key with _ | v <;> simp [h2]
  | cons c cs ih =>
    simp only [List.foldl_cons, List.countP_cons]
    by_cases hkey : joinT c = key
    · have hd : decide (joinT c = key) = true := by simp [hkey]
      rw [hd, if_pos rfl]
      by_cases hc : containsT t (joinT c) = true
      · rw [if_pos hc, ih, lookupT_bumpT, hkey, if_pos rfl]
        rcases h2 : lookupT t key with _ | v
        · simp_all
        · simp only [h2, Option.map_some', Option.some.injEq]
          omega
      · rw [if_neg hc, ih]
        have hnone : lookupT t key = none := by
          unfold containsT at hc
          rw [hkey] at hc
          rcases h2 : lookupT t key with _ | v
          · rfl
          · rw [h2] at hc
            simp at hc
        rw [hnone]
        simp
    · have hd : decide (joinT c = key) = false := by simp [hkey]
      rw [hd]
      simp only [Bool.false_eq_true, if_false, Nat.add_zero]
      by_cases hc : containsT t (joinT c) = true
      · rw [if_pos hc, ih, lookupT_bumpT, if_neg (fun h : key = joinT c => hkey h.symm)]
      · rw [if_neg hc, ih]


theorem keysT_countLevel (cands : Table) (k : Nat) (lines : List (List PyStr)) :
    keysT (countLevel cands k lines) = keysT cands := by
  unfold countLevel
  induction lines generalizing cands with
  | nil => rfl
  | cons line lines ih =>
    simp only [List.foldl_cons]
    rw [ih, keysT_countLine]

theorem lookupT_countLevel (cands : Table) (k : Nat) (lines : List (List PyStr)) (key : PyStr) :
    lookupT (countLevel cands k lines) key =
      (lookupT cands key).map
        (· + (lines.map
          (fun line => (combinations k line).countP (fun c => decide (joinT c = key)))).sum) := by
  unfold countLevel
  induction lines generalizing cands with
  | nil => rcases h2 : lookupT cands key with _ | v <;> simp [h2]
  | cons line lines ih =>
    simp only [List.foldl_cons, List.map_cons, List.sum_cons]
    rw [ih, lookupT_countLine]
    rcases h2 : lookupT cands key with _ | v
    · simp_all
    · simp only [h2, Option.map_some', Option.some.injEq]
      omega

theorem countP_eq_ite_of_nodup {l : List (List PyStr)} (h : l.Nodup) (a : List PyStr) :
    l.countP (fun c => decide (c = a)) = if a ∈ l then 1 else 0 := by
  induction l with
  | nil => simp
  | cons x xs ih =>
    rcases List.nodup_cons.mp h with ⟨hx, hxs⟩
    rw [List.countP_cons, ih hxs]
    by_cases hxa : x = a
    · subst hxa
      rw [if_neg hx, if_pos (List.mem_cons_self x xs)]
      simp
    · have hd : decide (x = a) = false := by simp [hxa]
      rw [hd]
      have hmem : (a ∈ x :: xs) ↔ (a ∈ xs) := by
        simp only [List.mem_cons]
        constructor
        · rintro (h2 | h2)
          · exact absurd h2.symm hxa
          · exact h2
        · exact Or.inr
      rw [if_congr hmem rfl rfl]
      simp

theorem countP_join_combinations {line ks : List PyStr} {k : Nat} (hline : GoodLine line)
    (hks : TokList ks) :
    (combinations k line).countP (fun c => decide (joinT c = joinT ks)) =
      if ks.Sublist line ∧ ks.length = k then 1 else 0 := by
  have hnodup : (combinations k line).Nodup := nodup_combinations (strictSorted_nodup hline.2)
  have hcong : (combinations k line).countP (fun c => decide (joinT c = joinT ks)) =
      (combinations k line).countP (fun c => decide (c = ks)) := by
    refine List.countP_congr ?_
    intro c hc
    rcases mem_combinations.mp hc with ⟨hs, -⟩
    have htokc : ∀ x ∈ c, IsTok x := fun x hx => hline.1 x (hs.subset hx)
    simp only [decide_eq_true_eq]
    constructor
    · intro hj
      exact joinT_inj htokc hks hj
    · rintro rfl
      rfl
  rw [hcong, countP_eq_ite_of_nodup hnodup ks]
  rw [if_congr mem_combinations rfl rfl]

theorem sum_map_ite {α : Type} (l : List α) (p : α → Prop) [DecidablePred p] :
    (l.map (fun a => if p a then 1 else 0)).sum = l.countP (fun a => decide (p a)) := by
  induction l with
  | nil => rfl
  | cons x xs ih =>
    simp only [List.map_cons, List.sum_cons, List.countP_cons, ih, decide_eq_true_eq]
    omega

/-- C4: frequency-counting correctness. For level k = 2 or 3, a candidate
table with canonical size-k keys seeded at 0, and sorted duplicate-free
transaction lines, the counting loop leaves each candidate key at exactly
the number of transactions containing its items as a subset, and the key
set of the table is unchanged (combinations that are not keys change
nothing; in the embedding the transaction list is an immutable value the
loop only reads). -/
theorem C4_counting_correct (cands : Table) (k : Nat) (lines : List (List PyStr))
    (hkval : k = 2 ∨ k = 3) (hlines : GoodLines lines)
    (hcanon : CanonTable k cands) (hzero : AllZero cands) :
    (∀ key ∈ keysT cands,
        lookupT (countLevel cands k lines) key = some (support (splitT key) lines)) ∧
    keysT (countLevel cands k lines) = keysT cands := by
  refine ⟨?_, keysT_countLevel cands k lines⟩
  intro key hkey
  rcases hcanon key hkey with ⟨hlenk, htokk, hsortk, hjoink⟩
  rw [lookupT_countLevel, allZero_lookupT hzero hkey]
  simp only [Option.map_some', Nat.zero_add]
  congr 1
  have hper : ∀ line ∈ lines,
      (combinations k line).countP (fun c => decide (joinT c = key)) =
        if (splitT key).Sublist line then 1 else 0 := by
    intro line hline
    have h1 : (combinations k line).countP (fun c => decide (joinT c = joinT (splitT key))) =
        if (splitT key).Sublist line ∧ (splitT key).length = k then 1 else 0 :=
      countP_join_combinations (hlines line hline) htokk
    rw [hjoink] at h1
    rw [h1, if_congr (and_iff_left hlenk) rfl rfl]
  rw [List.map_congr_left hper]
  rw [sum_map_ite lines (fun line => (splitT key).Sublist line)]
  unfold support
  refine List.countP_congr ?_
  intro line hline
  simp only [decide_eq_true_eq, List.all_eq_true]
  constructor
  · intro hs x hx
    exact contains_iff_mem.mpr (hs.subset hx)
  · intro hall
    refine (sublist_iff_subset_of_strict hsortk (hlines line hline).2).mpr ?_
    intro x hx
    exact contains_iff_mem.mp (hall x hx)

/-- C4 witness: the pair candidate `"a b"` counted over three concrete
transactions ends at count 2, the number of transactions containing both
items. -/
theorem C4_counting_correct_witness :
    (∀ key ∈ keysT [(['a', ' ', 'b'], 0)],
        lookupT (countLevel [(['a', ' ', 'b'], 0)] 2
            [[['a'], ['b'], ['c']], [['a'], ['b']], [['b'], ['c']]]) key =
          some (support (splitT key) [[['a'], ['b'], ['c']], [['a'], ['b']], [['b'], ['c']]])) ∧
    keysT (countLevel [(['a', ' ', 'b'], 0)] 2
        [[['a'], ['b'], ['c']], [['a'], ['b']], [['b'], ['c']]]) =
      keysT [(['a', ' ', 'b'], 0)] :=
  C4_counting_correct [(['a', ' ', 'b'], 0)] 2
    [[['a'], ['b'], ['c']], [['a'], ['b']], [['b'], ['c']]]
    (Or.inl rfl) (by decide) (by decide) (by decide)

/-! ### Rule construction -/

theorem sublist_filter_mem {c items : List PyStr} (hs : c.Sublist items)
    (hnd : items.Nodup) : items.filter (fun x => c.contains x) = c := by
  induction items generalizing c with
  | nil =>
    rw [List.sublist_nil.mp hs]
    rfl
  | cons x items2 ih =>
    rcases List.nodup_cons.mp hnd with ⟨hx, hnd2⟩
    cases hs with
    | cons _ hs2 =>
      have hxc : c.contains x = false := by
        rw [Bool.eq_false_iff]
        intro hcx
        exact hx (hs2.subset (contains_iff_mem.mp hcx))
      rw [List.filter_cons, hxc]
      simp only [Bool.false_eq_true, if_false]
      exact ih hs2 hnd2
    | cons₂ a2 hs2 =>
      rename_i c2
      have hxc : (x :: c2).contains x = true := contains_iff_mem.mpr (List.mem_cons_self x c2)
      rw [List.filter_cons, hxc]
      simp only [if_true]
      rw [List.filter_congr ?_, ih hs2 hnd2]
      intro y hy
      have hyx : y ≠ x := fun he => hx (he ▸ hy)
      show (x :: c2).contains y = c2.contains y
      rcases h2 : c2.contains y with _ | _
      · rw [Bool.eq_false_iff]
        intro hcy
        rcases List.mem_cons.mp (contains_iff_mem.mp hcy) with he | hm
        · exact hyx he
        · rw [contains_iff_mem.mpr hm] at h2
          cases h2
      · exact contains_iff_mem.mpr (List.mem_cons_of_mem x (contains_iff_mem.mp h2))

theorem rule_split_facts {c items : List PyStr} {i : Nat} (hnd : items.Nodup)
    (hc : c ∈ combinations i items) (h1 : 1 ≤ i) (h2 : i < items.length) :
    c ≠ [] ∧ items.filter (fun x => !c.contains x) ≠ [] ∧
      c.Disjoint (items.filter (fun x => !c.contains x)) ∧
      (c ++ items.filter (fun x => !c.contains x)).Perm items := by
  rcases mem_combinations.mp hc with ⟨hs, hl⟩
  have hperm : (c ++ items.filter (fun x => !c.contains x)).Perm items := by
    have h3 := List.filter_append_perm (fun x => c.contains x) items
    rw [sublist_filter_mem hs hnd] at h3
    exact h3
  refine ⟨?_, ?_, ?_, hperm⟩
  · intro he
    rw [he] at hl
    simp at hl
    omega
  · intro he
    have h4 := hperm.length_eq
    rw [List.length_append, hl, he] at h4
    simp at h4
    omega
  · intro a hac haf
    rcases List.mem_filter.mp haf with ⟨-, hb⟩
    rw [contains_iff_mem.mpr hac] at hb
    cases hb

theorem mem_ruleCombos {items c : List PyStr} :
    c ∈ ruleCombos items ↔
      ∃ i, 1 ≤ i ∧ i < items.length ∧ c ∈ combinations i items := by
  unfold ruleCombos
  rw [List.mem_flatMap]
  constructor
  · rintro ⟨i, hi, hc⟩
    rw [List.mem_range'_1] at hi
    exact ⟨i, hi.1, by omega, hc⟩
  · rintro ⟨i, h1, h2, hc⟩
    exact ⟨i, List.mem_range'_1.mpr ⟨h1, by omega⟩, hc⟩

theorem rulesFor_elim {af : Nat} {args : List Table} {items : List PyStr}
    {cs : List (List PyStr)} {rs : List Rule}
    (h : rulesFor af args items cs = some rs) :
    ∀ r ∈ rs, ∃ c ∈ cs, r.left = c ∧
      r.right = items.filter (fun x => !c.contains x) ∧ r.all_freq = af ∧
      lookupArgs args c = some r.left_freq := by
  induction cs generalizing rs with
  | nil =>
    rw [rulesFor] at h
    cases h
    intro r hr
    cases hr
  | cons c cs ih =>
    rw [rulesFor] at h
    rcases h1 : lookupArgs args c with _ | lf
    · rw [h1] at h
      cases h
    · rw [h1] at h
      rcases h2 : rulesFor af args items cs with _ | rest
      · rw [h2] at h
        cases h
      · rw [h2] at h
        cases h
        intro r hr
        rcases List.mem_cons.mp hr with rfl | hr
        · exact ⟨c, List.mem_cons_self c cs, rfl, rfl, rfl, h1⟩
        · rcases ih h2 r hr with ⟨c2, hc2, he⟩
          exact ⟨c2, List.mem_cons_of_mem c hc2, he⟩

theorem rulesFor_intro {af : Nat} {args : List Table} {items : List PyStr}
    {cs : List (List PyStr)} {rs : List Rule}
    (h : rulesFor af args items cs = some rs) :
    ∀ c ∈ cs, ∃ r ∈ rs, r.left = c ∧
      r.right = items.filter (fun x => !c.contains x) := by
  induction cs generalizing rs with
  | nil =>
    intro c hc
    cases hc
  | cons c cs ih =>
    rw [rulesFor] at h
    rcases h1 : lookupArgs args c with _ | lf
    · rw [h1] at h
      cases h
    · rw [h1] at h
      rcases h2 : rulesFor af args items cs with _ | rest
      · rw [h2] at h
        cases h
      · rw [h2] at h
        cases h
        intro c2 hc2
        rcases List.mem_cons.mp hc2 with rfl | hc2
        · exact ⟨_, List.mem_cons_self _ _, rfl, rfl⟩
        · rcases ih h2 c2 hc2 with ⟨r, hr, he⟩
          exact ⟨r, List.mem_cons_of_mem _ hr, he⟩

theorem make_rules_elim {t : Table} {args : List Table} {rs : List Rule}
    (h : make_rules t args = some rs) :
    ∀ r ∈ rs, ∃ key v, (key, v) ∈ t ∧ ∃ c ∈ ruleCombos (splitT key),
      r.left = c ∧ r.right = (splitT key).filter (fun x => !c.contains x) ∧
      r.all_freq = v ∧ lookupArgs args c = some r.left_freq := by
  induction t generalizing rs with
  | nil =>
    rw [make_rules] at h
    cases h
    intro r hr
    cases hr
  | cons e rest ih =>
    obtain ⟨key, v⟩ := e
    rw [make_rules] at h
    rcases h1 : rulesFor v args (splitT key) (ruleCombos (splitT key)) with _ | rs1
    · rw [h1] at h
      cases h
    · rw [h1] at h
      rcases h2 : make_rules rest args with _ | more
      · rw [h2] at h
        cases h
      · rw [h2] at h
        cases h
        intro r hr
        rcases List.mem_append.mp hr with hr | hr
        · rcases rulesFor_elim h1 r hr with ⟨c, hc, he1, he2, he3, he4⟩
          exact ⟨key, v, List.mem_cons_self _ _, c, hc, he1, he2, he3, he4⟩
        · rcases ih h2 r hr with ⟨key2, v2, hm, hrest⟩
          exact ⟨key2, v2, List.mem_cons_of_mem _ hm, hrest⟩

theorem make_rules_intro {t : Table} {args : List Table} {rs : List Rule}
    (h : make_rules t args = some rs) :
    ∀ key ∈ keysT t, ∀ c ∈ ruleCombos (splitT key), ∃ r ∈ rs, r.left = c ∧
      r.right = (splitT key).filter (fun x => !c.contains x) := by
  induction t generalizing rs with
  | nil =>
    intro key hkey
    cases hkey
  | cons e rest ih =>
    obtain ⟨key, v⟩ := e
    rw [make_rules] at h
    rcases h1 : rulesFor v args (splitT key) (ruleCombos (splitT key)) with _ | rs1
    · rw [h1] at h
      cases h
    · rw [h1] at h
      rcases h2 : make_rules rest args with _ | more
      · rw [h2] at h
        cases h
      · rw [h2] at h
        cases h
        intro key2 hkey2 c hc
        rcases List.mem_cons.mp hkey2 with he | hkey2
        · subst he
          rcases rulesFor_intro h1 c hc with ⟨r, hr, he1, he2⟩
          exact ⟨r, List.mem_append.mpr (Or.inl hr), he1, he2⟩
        · rcases ih h2 key2 hkey2 c hc with ⟨r, hr, he⟩
          exact ⟨r, List.mem_append.mpr (Or.inr hr), he⟩

theorem rulesFor_total {af : Nat} {args : List Table} {items : List PyStr}
    {cs : List (List PyStr)} (h : ∀ c ∈ cs, (lookupArgs args c).isSome = true) :
    ∃ rs, rulesFor af args items cs = some rs := by
  induction cs with
  | nil => exact ⟨[], rfl⟩
  | cons c cs ih =>
    rcases ih (fun c2 hc2 => h c2 (List.mem_cons_of_mem c hc2)) with ⟨rest, hrest⟩
    have h1 := h c (List.mem_cons_self c cs)
    rcases h2 : lookupArgs args c with _ | lf
    · rw [h2] at h1
      cases h1
    · refine ⟨⟨c, items.filter (fun x => !c.contains x), af, lf⟩ :: rest, ?_⟩
      rw [rulesFor, h2, hrest]

theorem make_rules_total {t : Table} {args : List Table}
    (h : ∀ key ∈ keysT t, ∀ c ∈ ruleCombos (splitT key),
      (lookupArgs args c).isSome = true) :
    ∃ rs, make_rules t args = some rs := by
  induction t with
  | nil => exact ⟨[], rfl⟩
  | cons e rest ih =>
    obtain ⟨key, v⟩ := e
    rcases ih (fun k2 hk2 => h k2 (List.mem_cons_of_mem _ hk2)) with ⟨more, hmore⟩
    rcases @rulesFor_total v args (splitT key) (ruleCombos (splitT key))
        (h _ (List.mem_cons_self _ _)) with ⟨rs1, hrs1⟩
    refine ⟨rs1 ++ more, ?_⟩
    rw [make_rules, hrs1, hmore]
/-- C7: rule reconstruction. Every Rule returned by `make_rules` on a table
of duplicate-free itemset keys splits its originating itemset exactly: the
antecedent and consequent are disjoint, together a permutation of the
itemset's items (so their sorted union is the sorted itemset), both
nonempty; and every antecedent size from 1 to n−1 is enumerated. -/
theorem C7_rule_reconstruction (t : Table) (args : List Table)
    (hnd : ∀ key ∈ keysT t, (splitT key).Nodup) (rs : List Rule)
    (hmk : make_rules t args = some rs) :
    (∀ r ∈ rs, ∃ key ∈ keysT t,
        r.left ≠ [] ∧ r.right ≠ [] ∧ r.left.Disjoint r.right ∧
        (r.left ++ r.right).Perm (splitT key)) ∧
    (∀ key ∈ keysT t, ∀ i, 1 ≤ i → i < (splitT key).length →
        ∃ r ∈ rs, r.left.length = i ∧ (r.left ++ r.right).Perm (splitT key)) := by
  constructor
  · intro r hr
    rcases make_rules_elim hmk r hr with ⟨key, v, hm, c, hc, he1, he2, he3, he4⟩
    have hkeymem : key ∈ keysT t := List.mem_map.mpr ⟨(key, v), hm, rfl⟩
    rcases mem_ruleCombos.mp hc with ⟨i, h1, h2, hci⟩
    rcases rule_split_facts (hnd key hkeymem) hci h1 h2 with ⟨f1, f2, f3, f4⟩
    rw [he1, he2]
    exact ⟨key, hkeymem, f1, f2, f3, f4⟩
  · intro key hkey i h1 h2
    have hci : (splitT key).take i ∈ combinations i (splitT key) :=
      mem_combinations.mpr ⟨List.take_sublist i _, by rw [List.length_take]; omega⟩
    have hcc : (splitT key).take i ∈ ruleCombos (splitT key) :=
      mem_ruleCombos.mpr ⟨i, h1, h2, hci⟩
    rcases make_rules_intro hmk key hkey _ hcc with ⟨r, hr, he1, he2⟩
    rcases rule_split_facts (hnd key hkey) hci h1 h2 with ⟨-, -, -, f4⟩
    refine ⟨r, hr, ?_, ?_⟩
    · rw [he1, List.length_take]
      omega
    · rw [he1, he2]
      exact f4

/-- C7 witness: the two rules produced from the frequent pair `"a b"`
reconstruct it exactly. -/
theorem C7_rule_reconstruction_witness :
    (∀ r ∈ [(⟨[['a']], [['b']], 150, 200⟩ : Rule), ⟨[['b']], [['a']], 150, 300⟩],
        ∃ key ∈ keysT [(['a', ' ', 'b'], 150)],
        r.left ≠ [] ∧ r.right ≠ [] ∧ r.left.Disjoint r.right ∧
        (r.left ++ r.right).Perm (splitT key)) ∧
    (∀ key ∈ keysT [(['a', ' ', 'b'], 150)], ∀ i, 1 ≤ i → i < (splitT key).length →
        ∃ r ∈ [(⟨[['a']], [['b']], 150, 200⟩ : Rule), ⟨[['b']], [['a']], 150, 300⟩],
          r.left.length = i ∧ (r.left ++ r.right).Perm (splitT key)) :=
  C7_rule_reconstruction [(['a', ' ', 'b'], 150)] [[(['a'], 200), (['b'], 300)]]
    (by decide) [⟨[['a']], [['b']], 150, 200⟩, ⟨[['b']], [['a']], 150, 300⟩] (by decide)

/-! ### Singles counting -/

theorem splitT_token {u : PyStr} (h : IsTok u) : splitT u = [u] :=
  @splitT_joinT [u] (by intro t ht; rw [List.mem_singleton.mp ht]; exact h)

theorem lookupT_append_of_some {t : Table} {key : PyStr} {v : Nat} (s : Table)
    (h : lookupT t key = some v) : lookupT (t ++ s) key = some v := by
  induction t with
  | nil => cases h
  | cons e rest ih =>
    obtain ⟨k, w⟩ := e
    by_cases hk : k = key
    · rw [lookupT, if_pos hk] at h
      rw [List.cons_append, lookupT, if_pos hk]
      exact h
    · rw [lookupT, if_neg hk] at h
      rw [List.cons_append, lookupT, if_neg hk]
      exact ih h

theorem lookupT_append_of_none {t : Table} {key : PyStr} (s : Table)
    (h : lookupT t key = none) : lookupT (t ++ s) key = lookupT s key := by
  induction t with
  | nil => rfl
  | cons e rest ih =>
    obtain ⟨k, w⟩ := e
    by_cases hk : k = key
    · rw [lookupT, if_pos hk] at h
      cases h
    · rw [lookupT, if_neg hk] at h
      rw [List.cons_append, lookupT, if_neg hk]
      exact ih h

theorem lookupT_incrT (t : Table) (key key' : PyStr) :
    lookupT (incrT t key) key' =
      if key' = key then some ((lookupT t key').getD 0 + 1) else lookupT t key' := by
  unfold incrT
  by_cases hc : containsT t key = true
  · rw [if_pos hc, lookupT_bumpT]
    by_cases h : key' = key
    · rw [if_pos h, if_pos h]
      subst h
      unfold containsT at hc
      rcases h2 : lookupT t key' with _ | v
      · rw [h2] at hc
        simp at hc
      · rfl
    · rw [if_neg h, if_neg h]
  · rw [if_neg hc, lookupT_bumpT]
    have hnone : lookupT t key = none := by
      unfold containsT at hc
      rcases h2 : lookupT t key with _ | v
      · rfl
      · rw [h2] at hc
        simp at hc
    by_cases h : key' = key
    · rw [if_pos h, if_pos h]
      subst h
      rw [lookupT_append_of_none _ hnone, hnone]
      rw [lookupT, if_pos rfl]
      rfl
    · rw [if_neg h, if_neg h]
      rcases h2 : lookupT t key' with _ | v
      · rw [lookupT_append_of_none _ h2]
        rw [lookupT, if_neg (fun hc2 : key = key' => h hc2.symm)]
        rfl
      · rw [lookupT_append_of_some _ h2]

theorem keysT_incrT (t : Table) (key : PyStr) :
    keysT (incrT t key) =
      if containsT t key = true then keysT t else keysT t ++ [key] := by
  unfold incrT
  by_cases hc : containsT t key = true
  · rw [if_pos hc, if_pos hc, keysT_bumpT]
  · rw [if_neg hc, if_neg hc, keysT_bumpT]
    unfold keysT
    rw [List.map_append]
    rfl

theorem nodupKeys_incrT {t : Table} (h : NodupKeys t) (key : PyStr) :
    NodupKeys (incrT t key) := by
  unfold NodupKeys
  rw [keysT_incrT]
  by_cases hc : containsT t key = true
  · rw [if_pos hc]
    exact h
  · rw [if_neg hc]
    rw [List.nodup_append]
    refine ⟨h, List.nodup_singleton key, ?_⟩
    intro a ha hb
    rw [List.mem_singleton] at hb
    subst hb
    exact hc (containsT_iff.mpr ha)

theorem addLine_getD (line : List PyStr) : ∀ (t : Table) (x : PyStr),
    (lookupT (line.foldl incrT t) x).getD 0 = (lookupT t x).getD 0 + line.count x := by
  induction line with
  | nil =>
    intro t x
    simp
  | cons i rest ih =>
    intro t x
    rw [List.foldl_cons, ih, lookupT_incrT]
    by_cases h : x = i
    · rw [if_pos h]
      subst h
      have hcount : (x :: rest).count x = rest.count x + 1 := by
        rw [List.count_cons]
        simp
      rw [hcount]
      simp only [Option.getD_some]
      omega
    · rw [if_neg h]
      have hcount : (i :: rest).count x = rest.count x := by
        rw [List.count_cons]
        have : (i == x) = false := by
          rw [beq_eq_false_iff_ne]
          exact fun hc => h hc.symm
        rw [this]
        rfl
      rw [hcount]

theorem addLine_isSome (line : List PyStr) : ∀ (t : Table) (x : PyStr),
    (lookupT (line.foldl incrT t) x).isSome =
      (decide (x ∈ line) || (lookupT t x).isSome) := by
  induction line with
  | nil =>
    intro t x
    simp
  | cons i rest ih =>
    intro t x
    rw [List.foldl_cons, ih, lookupT_incrT]
    by_cases h : x = i
    · rw [if_pos h]
      simp [h]
    · rw [if_neg h]
      have : (x ∈ i :: rest) ↔ (x ∈ rest) := by
        rw [List.mem_cons]
        constructor
        · rintro (he | hm)
          · exact absurd he h
          · exact hm
        · exact Or.inr
      rw [decide_eq_decide.mpr this]

theorem nodupKeys_addLine {t : Table} (h : NodupKeys t) (line : List PyStr) :
    NodupKeys (line.foldl incrT t) := by
  induction line generalizing t with
  | nil => exact h
  | cons i rest ih => exact ih (nodupKeys_incrT h i)

theorem nodupKeys_singlesOf (lines : List (List PyStr)) : NodupKeys (singlesOf lines) := by
  unfold singlesOf
  suffices h : ∀ t : Table, NodupKeys t → NodupKeys (lines.foldl (fun t line => line.foldl incrT t) t) by
    exact h [] (by unfold NodupKeys keysT; simp)
  induction lines with
  | nil => intro t ht; exact ht
  | cons line rest ih => intro t ht; exact ih _ (nodupKeys_addLine ht line)

theorem singlesOf_getD (lines : List (List PyStr)) (x : PyStr) :
    (lookupT (singlesOf lines) x).getD 0 =
      (lines.map (fun line => line.count x)).sum := by
  unfold singlesOf
  suffices h : ∀ t : Table, (lookupT (lines.foldl (fun t line => line.foldl incrT t) t) x).getD 0 =
      (lookupT t x).getD 0 + (lines.map (fun line => line.count x)).sum by
    have h0 := h []
    rw [show lookupT ([] : Table) x = none from rfl] at h0
    simpa using h0
  induction lines with
  | nil => intro t; simp
  | cons line rest ih =>
    intro t
    rw [List.foldl_cons, ih, addLine_getD]
    simp only [List.map_cons, List.sum_cons]
    omega

theorem singlesOf_isSome (lines : List (List PyStr)) (x : PyStr) :
    (lookupT (singlesOf lines) x).isSome =
      decide (∃ line ∈ lines, x ∈ line) := by
  unfold singlesOf
  suffices h : ∀ t : Table, (lookupT (lines.foldl (fun t line => line.foldl incrT t) t) x).isSome =
      (decide (∃ line ∈ lines, x ∈ line) || (lookupT t x).isSome) by
    have h0 := h []
    rw [show lookupT ([] : Table) x = none from rfl] at h0
    simpa using h0
  induction lines with
  | nil => intro t; simp
  | cons line rest ih =>
    intro t
    rw [List.foldl_cons, ih, addLine_isSome]
    by_cases h1 : ∃ l ∈ rest, x ∈ l
    · simp [h1]
    · by_cases h2 : x ∈ line
      · simp [h1, h2]
      · simp [h1, h2]

/-! ### Pruning, by lookup -/

theorem nodupKeys_prune {t : Table} (h : NodupKeys t) : NodupKeys (prune t) := by
  unfold NodupKeys keysT at *
  exact List.Nodup.sublist ((List.filter_sublist t).map Prod.fst) h

theorem lookupT_prune {t : Table} (hnd : NodupKeys t) (key : PyStr) :
    lookupT (prune t) key =
      (lookupT t key).bind (fun v => if FREQ_THRES ≤ v then some v else none) := by
  induction t with
  | nil => rfl
  | cons e rest ih =>
    obtain ⟨k, v⟩ := e
    rcases List.nodup_cons.mp hnd with ⟨hk, hrest⟩
    by_cases hkey : k = key
    · subst hkey
      rw [lookupT, if_pos rfl]
      show lookupT (List.filter _ ((k, v) :: rest)) k = _
      rw [List.filter_cons]
      by_cases hv : FREQ_THRES ≤ v
      · rw [if_pos (by simpa using hv)]
        rw [lookupT, if_pos rfl]
        rw [show ((some v).bind fun w => if FREQ_THRES ≤ w then some w else none) =
          if FREQ_THRES ≤ v then some v else none from rfl, if_pos hv]
      · rw [if_neg (by simpa using hv)]
        have hnone : lookupT rest k = none := lookupT_eq_none_iff.mpr hk
        have h2 : lookupT (prune rest) k = none := by
          rw [ih hrest, hnone]
          rfl
        rw [show lookupT (List.filter (fun e => decide (FREQ_THRES ≤ e.2)) rest) k =
          lookupT (prune rest) k from rfl, h2]
        rw [show ((some v).bind fun w => if FREQ_THRES ≤ w then some w else none) =
          if FREQ_THRES ≤ v then some v else none from rfl, if_neg hv]
    · rw [lookupT, if_neg hkey]
      show lookupT (List.filter _ ((k, v) :: rest)) key = _
      rw [List.filter_cons]
      by_cases hv : FREQ_THRES ≤ v
      · rw [if_pos (by simpa using hv)]
        rw [lookupT, if_neg hkey]
        exact ih hrest
      · rw [if_neg (by simpa using hv)]
        exact ih hrest

theorem lookupT_prune_some {t : Table} {key : PyStr} {v : Nat} (hnd : NodupKeys t)
    (h : lookupT (prune t) key = some v) :
    lookupT t key = some v ∧ FREQ_THRES ≤ v := by
  rw [lookupT_prune hnd] at h
  rcases h2 : lookupT t key with _ | w
  · rw [h2] at h
    cases h
  · rw [h2] at h
    by_cases hw : FREQ_THRES ≤ w
    · rw [show ((some w).bind fun u => if FREQ_THRES ≤ u then some u else none) =
        if FREQ_THRES ≤ w then some w else none from rfl, if_pos hw] at h
      cases h
      exact ⟨rfl, hw⟩
    · rw [show ((some w).bind fun u => if FREQ_THRES ≤ u then some u else none) =
        if FREQ_THRES ≤ w then some w else none from rfl, if_neg hw] at h
      cases h

theorem lookupT_prune_of_ge {t : Table} {key : PyStr} {v : Nat} (hnd : NodupKeys t)
    (h : lookupT t key = some v) (hv : FREQ_THRES ≤ v) :
    lookupT (prune t) key = some v := by
  rw [lookupT_prune hnd, h]
  rw [show ((some v).bind fun u => if FREQ_THRES ≤ u then some u else none) =
    if FREQ_THRES ≤ v then some v else none from rfl, if_pos hv]

theorem mem_keysT_prune_iff {t : Table} {key : PyStr} (hnd : NodupKeys t) :
    key ∈ keysT (prune t) ↔ ∃ v, lookupT t key = some v ∧ FREQ_THRES ≤ v := by
  constructor
  · intro hmem
    rcases h2 : lookupT (prune t) key with _ | v
    · exact absurd (lookupT_eq_none_iff.mp h2) (by simp [hmem])
    · rcases lookupT_prune_some hnd h2 with ⟨h3, h4⟩
      exact ⟨v, h3, h4⟩
  · rintro ⟨v, h1, h2⟩
    have h3 := lookupT_prune_of_ge hnd h1 h2
    by_contra hmem
    rw [lookupT_eq_none_iff.mpr hmem] at h3
    cases h3

/-! ### Singles values are supports -/

theorem count_one_of_mem {l : List PyStr} {x : PyStr} (hnd : l.Nodup) (hx : x ∈ l) :
    l.count x = 1 := by
  induction l with
  | nil => cases hx
  | cons y ys ih =>
    rcases List.nodup_cons.mp hnd with ⟨hy, hys⟩
    rw [List.count_cons]
    rcases List.mem_cons.mp hx with he | hx2
    · subst he
      have hz : ys.count x = 0 := by
        rcases h2 : ys.count x with _ | n
        · rfl
        · exfalso
          have : x ∈ ys := by
            by_contra hmem
            rw [List.count_eq_zero_of_not_mem hmem] at h2
            cases h2
          exact hy this
      rw [hz, beq_self_eq_true]
      rfl
    · have hyx : (y == x) = false := by
        rw [beq_eq_false_iff_ne]
        rintro rfl
        exact hy hx2
      rw [hyx, ih hys hx2]
      simp

theorem sum_count_eq_support {lines : List (List PyStr)} (hg : GoodLines lines) (x : PyStr) :
    (lines.map (fun line => line.count x)).sum = support [x] lines := by
  unfold support
  induction lines with
  | nil => rfl
  | cons line rest ih =>
    have hgr : GoodLines rest := fun l hl => hg l (List.mem_cons_of_mem _ hl)
    simp only [List.map_cons, List.sum_cons, List.countP_cons, ih hgr]
    have hnd : line.Nodup := strictSorted_nodup (hg line (List.mem_cons_self _ _)).2
    have hp : (([x] : List PyStr).all (fun y => line.contains y) = true) ↔ x ∈ line := by
      simp [contains_iff_mem]
    by_cases hx : x ∈ line
    · rw [count_one_of_mem hnd hx, if_pos (hp.mpr hx)]
      omega
    · rw [List.count_eq_zero_of_not_mem hx, if_neg (fun hc => hx (hp.mp hc))]
      omega

theorem support_mono {items1 items2 : List PyStr} (lines : List (List PyStr))
    (h : ∀ x ∈ items1, x ∈ items2) :
    support items2 lines ≤ support items1 lines := by
  unfold support
  refine List.countP_mono_left ?_
  intro line hline hp
  rw [List.all_eq_true] at hp ⊢
  intro x hx
  exact hp x (h x hx)

/-! ### Pipeline characterisation: level values -/

theorem nodupKeys_countLevel {cands : Table} (h : NodupKeys cands) (k : Nat)
    (lines : List (List PyStr)) : NodupKeys (countLevel cands k lines) := by
  unfold NodupKeys
  rw [keysT_countLevel]
  exact h

theorem countLevel_value {lines : List (List PyStr)} (hg : GoodLines lines) {cands : Table}
    {ks : List PyStr} {k : Nat} (hz : AllZero cands) (htk : TokList ks)
    (hlen : ks.length = k) (hmem : joinT ks ∈ keysT cands) :
    lookupT (countLevel cands k lines) (joinT ks) =
      some (lines.countP (fun line => decide (ks.Sublist line))) := by
  rw [lookupT_countLevel, allZero_lookupT hz hmem]
  simp only [Option.map_some', Nat.zero_add]
  congr 1
  have hper : ∀ line ∈ lines,
      (combinations k line).countP (fun c => decide (joinT c = joinT ks)) =
        if ks.Sublist line then 1 else 0 := by
    intro line hline
    rw [countP_join_combinations (hg line hline) htk]
    rw [if_congr (and_iff_left hlen) rfl rfl]
  rw [List.map_congr_left hper, sum_map_ite lines (fun line => ks.Sublist line)]

theorem countP_sublist_eq_support {lines : List (List PyStr)} (hg : GoodLines lines)
    {ks : List PyStr} (hsort : StrictSorted ks) :
    lines.countP (fun line => decide (ks.Sublist line)) = support ks lines := by
  unfold support
  refine List.countP_congr ?_
  intro line hline
  simp only [decide_eq_true_eq, List.all_eq_true]
  constructor
  · intro hs x hx
    exact contains_iff_mem.mpr (hs.subset hx)
  · intro hall
    exact (sublist_iff_subset_of_strict hsort (hg line hline).2).mpr
      (fun x hx => contains_iff_mem.mp (hall x hx))

theorem countP_sublist_zero {lines : List (List PyStr)} (hg : GoodLines lines)
    {ks : List PyStr} (hnd : ¬ ks.Nodup) :
    lines.countP (fun line => decide (ks.Sublist line)) = 0 := by
  rw [List.countP_eq_zero]
  intro line hline
  simp only [decide_eq_true_eq]
  intro hs
  exact hnd (List.Nodup.sublist hs (strictSorted_nodup (hg line hline).2))

/-! ### Pipeline characterisation: singles -/

theorem singlesT_lookup_some {lines : List (List PyStr)} {x : PyStr} {v : Nat}
    (hg : GoodLines lines) (h : lookupT (singlesT lines) x = some v) :
    v = support [x] lines ∧ FREQ_THRES ≤ v ∧ IsTok x := by
  unfold singlesT at h
  rcases lookupT_prune_some (nodupKeys_singlesOf lines) h with ⟨h1, h2⟩
  have hv : v = (lines.map (fun line => line.count x)).sum := by
    have h3 := singlesOf_getD lines x
    rw [h1] at h3
    simpa using h3
  have hmem : ∃ line ∈ lines, x ∈ line := by
    have h3 := singlesOf_isSome lines x
    rw [h1] at h3
    simpa using h3.symm
  rcases hmem with ⟨line, hline, hxl⟩
  have htok : IsTok x := (hg line hline).1 x hxl
  rw [sum_count_eq_support hg] at hv
  exact ⟨hv, h2, htok⟩

theorem keysT_singlesT_char {lines : List (List PyStr)} {x : PyStr} (hg : GoodLines lines)
    (hx : x ∈ keysT (singlesT lines)) :
    IsTok x ∧ lookupT (singlesT lines) x = some (support [x] lines) ∧
      FREQ_THRES ≤ support [x] lines := by
  rcases h2 : lookupT (singlesT lines) x with _ | v
  · exact absurd (lookupT_eq_none_iff.mp h2) (by simp [hx])
  · rcases singlesT_lookup_some hg h2 with ⟨hv, hge, htok⟩
    subst hv
    exact ⟨htok, rfl, hge⟩

theorem candStep_single {u w : PyStr} (hu : IsTok u) (hw : IsTok w) :
    candStep u w = some (joinT [u, w]) := by
  unfold candStep
  rw [splitT_token hu, splitT_token hw]
  rfl

theorem candStep_pair {u v u2 w : PyStr} (hu : IsTok u) (hv : IsTok v) (hu2 : IsTok u2)
    (hw : IsTok w) :
    candStep (joinT [u, v]) (joinT [u2, w]) =
      if u = u2 then some (joinT [u, v, w]) else none := by
  have htok1 : ∀ x ∈ [u, v], IsTok x := by
    intro x hx
    rcases List.mem_cons.mp hx with rfl | hx
    · exact hu
    · rw [List.mem_singleton.mp hx]
      exact hv
  have htok2 : ∀ x ∈ [u2, w], IsTok x := by
    intro x hx
    rcases List.mem_cons.mp hx with rfl | hx
    · exact hu2
    · rw [List.mem_singleton.mp hx]
      exact hw
  rw [@candStep_canonical [u, v] [u2, w] 2 (by omega) htok1 htok2 rfl rfl]
  by_cases h : u = u2
  · subst h
    rw [if_pos (show List.take (2 - 1) [u, v] = List.take (2 - 1) [u, w] from rfl),
      if_pos rfl]
    exact rfl
  · rw [if_neg ?_, if_neg h]
    intro hc
    exact h (by injection hc)

/-! ### Pipeline characterisation: pairs -/

theorem pairsT_intro {lines : List (List PyStr)} {u w : PyStr} (hg : GoodLines lines)
    (hu : u ∈ keysT (singlesT lines)) (hw : w ∈ keysT (singlesT lines))
    (huw : strLtB u w = true) (hsup : FREQ_THRES ≤ support [u, w] lines) :
    lookupT (pairsT lines) (joinT [u, w]) = some (support [u, w] lines) := by
  have htoku := (keysT_singlesT_char hg hu).1
  have htokw := (keysT_singlesT_char hg hw).1
  have hmem : joinT [u, w] ∈ keysT (make_candidates (singlesT lines)) :=
    (mem_keysT_make_candidates (nodupKeys_prune (nodupKeys_singlesOf lines))).mpr
      ⟨u, w, hu, hw, Or.inr huw, candStep_single htoku htokw⟩
  have htk : TokList [u, w] := by
    intro x hx
    rcases List.mem_cons.mp hx with rfl | hx
    · exact htoku
    · rw [List.mem_singleton.mp hx]
      exact htokw
  have hval := @countLevel_value lines hg (make_candidates (singlesT lines)) [u, w] 2
    (make_candidates_allZero _) htk rfl hmem
  rw [countP_sublist_eq_support hg (by
    unfold StrictSorted
    exact List.pairwise_cons.mpr ⟨fun y hy => by rw [List.mem_singleton.mp hy]; exact huw,
      List.pairwise_singleton _ _⟩)] at hval
  unfold pairsT
  exact lookupT_prune_of_ge
    (nodupKeys_countLevel (make_candidates_nodup _) 2 lines) hval hsup

theorem keysT_pairsT_char {lines : List (List PyStr)} {key : PyStr} (hg : GoodLines lines)
    (hk : key ∈ keysT (pairsT lines)) :
    ∃ u w, key = joinT [u, w] ∧ IsTok u ∧ IsTok w ∧ strLtB u w = true ∧
      u ∈ keysT (singlesT lines) ∧ w ∈ keysT (singlesT lines) ∧
      lookupT (pairsT lines) key = some (support [u, w] lines) ∧
      FREQ_THRES ≤ support [u, w] lines := by
  have hndS : NodupKeys (singlesT lines) := nodupKeys_prune (nodupKeys_singlesOf lines)
  have hndC : NodupKeys (countLevel (make_candidates (singlesT lines)) 2 lines) :=
    nodupKeys_countLevel (make_candidates_nodup _) 2 lines
  rcases (mem_keysT_prune_iff hndC).mp hk with ⟨v, hvl, hvge⟩
  have hkeymem : key ∈ keysT (countLevel (make_candidates (singlesT lines)) 2 lines) := by
    by_contra hc
    rw [lookupT_eq_none_iff.mpr hc] at hvl
    cases hvl
  rw [keysT_countLevel] at hkeymem
  rcases (mem_keysT_make_candidates hndS).mp hkeymem with ⟨u, w, hu, hw, huw, hcs⟩
  have htoku := (keysT_singlesT_char hg hu).1
  have htokw := (keysT_singlesT_char hg hw).1
  rw [candStep_single htoku htokw] at hcs
  have hkey : key = joinT [u, w] := by
    injection hcs with h2
    exact h2.symm
  have htk : TokList [u, w] := by
    intro x hx
    rcases List.mem_cons.mp hx with rfl | hx
    · exact htoku
    · rw [List.mem_singleton.mp hx]
      exact htokw
  have hmemC : joinT [u, w] ∈ keysT (make_candidates (singlesT lines)) := hkey ▸ hkeymem
  have hval := @countLevel_value lines hg (make_candidates (singlesT lines)) [u, w] 2
    (make_candidates_allZero _) htk rfl hmemC
  have hvv : v = lines.countP (fun line => decide (([u, w] : List PyStr).Sublist line)) := by
    rw [hkey] at hvl
    rw [hvl] at hval
    injection hval
  rcases huw with he | hlt
  · exfalso
    subst he
    rw [countP_sublist_zero hg (by simp)] at hvv
    subst hvv
    simp [FREQ_THRES] at hvge
  · have hsort : StrictSorted [u, w] := by
      unfold StrictSorted
      exact List.pairwise_cons.mpr ⟨fun y hy => by rw [List.mem_singleton.mp hy]; exact hlt,
        List.pairwise_singleton _ _⟩
    rw [countP_sublist_eq_support hg hsort] at hvv
    refine ⟨u, w, hkey, htoku, htokw, hlt, hu, hw, ?_, hvv ▸ hvge⟩
    rw [hkey]
    exact pairsT_intro hg hu hw hlt (hvv ▸ hvge)

/-! ### Pipeline characterisation: triples -/

theorem keysT_triplesT_char {lines : List (List PyStr)} {key : PyStr} (hg : GoodLines lines)
    (hk : key ∈ keysT (triplesT lines)) :
    ∃ u v w, key = joinT [u, v, w] ∧ IsTok u ∧ IsTok v ∧ IsTok w ∧
      strLtB u v = true ∧ strLtB v w = true ∧
      u ∈ keysT (singlesT lines) ∧ v ∈ keysT (singlesT lines) ∧ w ∈ keysT (singlesT lines) ∧
      joinT [u, v] ∈ keysT (pairsT lines) ∧ joinT [u, w] ∈ keysT (pairsT lines) ∧
      lookupT (triplesT lines) key = some (support [u, v, w] lines) ∧
      FREQ_THRES ≤ support [u, v, w] lines := by
  have hndP : NodupKeys (pairsT lines) :=
    nodupKeys_prune (nodupKeys_countLevel (make_candidates_nodup _) 2 lines)
  have hndC : NodupKeys (countLevel (make_candidates (pairsT lines)) 3 lines) :=
    nodupKeys_countLevel (make_candidates_nodup _) 3 lines
  rcases (mem_keysT_prune_iff hndC).mp hk with ⟨val, hvl, hvge⟩
  have hkeymem : key ∈ keysT (countLevel (make_candidates (pairsT lines)) 3 lines) := by
    by_contra hc
    rw [lookupT_eq_none_iff.mpr hc] at hvl
    cases hvl
  rw [keysT_countLevel] at hkeymem
  rcases (mem_keysT_make_candidates hndP).mp hkeymem with ⟨a, b, ha, hb, hab, hcs⟩
  rcases keysT_pairsT_char hg ha with
    ⟨u, v, hkeya, toku, tokv, huv, humem, hvmem, -, -⟩
  rcases keysT_pairsT_char hg hb with
    ⟨u2, w, hkeyb, toku2, tokw, hu2w, hu2mem, hwmem, -, -⟩
  rw [hkeya, hkeyb, candStep_pair toku tokv toku2 tokw] at hcs
  by_cases hu2 : u = u2
  · rw [if_pos hu2] at hcs
    have hkey : key = joinT [u, v, w] := by
      injection hcs with h2
      exact h2.symm
    subst hu2
    have hvw : v = w ∨ strLtB v w = true := by
      rcases hab with he | hlt
      · rw [hkeya, hkeyb] at he
        have htk1 : ∀ x ∈ [u, v], IsTok x := by
          intro x hx
          rcases List.mem_cons.mp hx with rfl | hx
          · exact toku
          · rw [List.mem_singleton.mp hx]
            exact tokv
        have htk2 : ∀ x ∈ [u, w], IsTok x := by
          intro x hx
          rcases List.mem_cons.mp hx with rfl | hx
          · exact toku
          · rw [List.mem_singleton.mp hx]
            exact tokw
        have := joinT_inj htk1 htk2 he
        injection this with h3 h4
        exact Or.inl (by injection h4)
      · rw [hkeya, hkeyb] at hlt
        have h5 : strLtB (joinT ([u] ++ [v])) (joinT ([u] ++ [w])) = strLtB v w :=
          strLtB_joinT_snoc [u] v w
        rw [show joinT [u, v] = joinT ([u] ++ [v]) from rfl,
          show joinT [u, w] = joinT ([u] ++ [w]) from rfl, h5] at hlt
        exact Or.inr hlt
    have htk : TokList [u, v, w] := by
      intro x hx
      rcases List.mem_cons.mp hx with rfl | hx
      · exact toku
      · rcases List.mem_cons.mp hx with rfl | hx
        · exact tokv
        · rw [List.mem_singleton.mp hx]
          exact tokw
    have hmemC : joinT [u, v, w] ∈ keysT (make_candidates (pairsT lines)) := hkey ▸ hkeymem
    have hval := @countLevel_value lines hg (make_candidates (pairsT lines)) [u, v, w] 3
      (make_candidates_allZero _) htk rfl hmemC
    have hvv : val = lines.countP (fun line => decide (([u, v, w] : List PyStr).Sublist line)) := by
      rw [hkey] at hvl
      rw [hvl] at hval
      injection hval
    rcases hvw with he | hltvw
    · exfalso
      subst he
      rw [countP_sublist_zero hg (by simp)] at hvv
      subst hvv
      simp [FREQ_THRES] at hvge
    · have hsort : StrictSorted [u, v, w] := by
        unfold StrictSorted
        refine List.pairwise_cons.mpr ⟨?_, List.pairwise_cons.mpr
          ⟨fun y hy => by rw [List.mem_singleton.mp hy]; exact hltvw,
            List.pairwise_singleton _ _⟩⟩
        intro y hy
        rcases List.mem_cons.mp hy with rfl | hy
        · exact huv
        · rw [List.mem_singleton.mp hy]
          exact strLtB_trans huv hltvw
      rw [countP_sublist_eq_support hg hsort] at hvv
      refine ⟨u, v, w, hkey, toku, tokv, tokw, huv, hltvw, humem, hvmem, hwmem,
        hkeya ▸ ha, hkeyb ▸ hb, ?_, hvv ▸ hvge⟩
      unfold triplesT
      rw [hkey]
      exact lookupT_prune_of_ge hndC (hkey ▸ hvl.trans (congrArg some hvv)) (hvv ▸ hvge)
  · rw [if_neg hu2] at hcs
    cases hcs

/-! ### Rule-level facts of the pipeline -/

theorem lookupArgs_one (t : Table) (rest : List Table) (u : PyStr) :
    lookupArgs (t :: rest) [u] = lookupT t u := by
  unfold lookupArgs
  rw [show ([u] : List PyStr).length - 1 = 0 from rfl, List.getElem?_cons_zero]
  rfl

theorem lookupArgs_two (t1 t2 : Table) (rest : List Table) (u v : PyStr) :
    lookupArgs (t1 :: t2 :: rest) [u, v] = lookupT t2 (joinT [u, v]) := by
  unfold lookupArgs
  rw [show ([u, v] : List PyStr).length - 1 = 0 + 1 from rfl, List.getElem?_cons_succ,
    List.getElem?_cons_zero]

theorem tokList_pair {u w : PyStr} (hu : IsTok u) (hw : IsTok w) : TokList [u, w] := by
  intro x hx
  rcases List.mem_cons.mp hx with rfl | hx
  · exact hu
  · rw [List.mem_singleton.mp hx]
    exact hw

theorem pair_rule_facts {lines : List (List PyStr)} (hg : GoodLines lines) :
    ∃ rs, make_rules (pairsT lines) [singlesT lines] = some rs ∧
      ∀ r ∈ rs, FREQ_THRES ≤ r.all_freq ∧ FREQ_THRES ≤ r.left_freq ∧
        r.all_freq ≤ r.left_freq := by
  have hndP : NodupKeys (pairsT lines) :=
    nodupKeys_prune (nodupKeys_countLevel (make_candidates_nodup _) 2 lines)
  have hcase : ∀ key ∈ keysT (pairsT lines), ∀ c ∈ ruleCombos (splitT key),
      ∃ u w, key = joinT [u, w] ∧ strLtB u w = true ∧
        u ∈ keysT (singlesT lines) ∧ w ∈ keysT (singlesT lines) ∧
        lookupT (pairsT lines) key = some (support [u, w] lines) ∧
        FREQ_THRES ≤ support [u, w] lines ∧ (c = [u] ∨ c = [w]) := by
    intro key hkey c hc
    rcases keysT_pairsT_char hg hkey with ⟨u, w, hkeyJ, toku, tokw, hlt, hu, hw, hl, hs⟩
    have hsplit : splitT key = [u, w] := by
      rw [hkeyJ]
      exact splitT_joinT (tokList_pair toku tokw)
    rw [hsplit] at hc
    rcases mem_ruleCombos.mp hc with ⟨i, h1, h2, hci⟩
    have hi : i = 1 := by
      simp only [List.length_cons, List.length_nil] at h2
      omega
    subst hi
    rw [show combinations 1 [u, w] = [[u], [w]] from rfl] at hci
    rcases List.mem_cons.mp hci with rfl | h3
    · exact ⟨u, w, hkeyJ, hlt, hu, hw, hl, hs, Or.inl rfl⟩
    · rw [List.mem_singleton.mp h3]
      exact ⟨u, w, hkeyJ, hlt, hu, hw, hl, hs, Or.inr rfl⟩
  have htot : ∀ key ∈ keysT (pairsT lines), ∀ c ∈ ruleCombos (splitT key),
      (lookupArgs [singlesT lines] c).isSome = true := by
    intro key hkey c hc
    rcases hcase key hkey c hc with ⟨u, w, -, -, hu, hw, -, -, hcval⟩
    rcases hcval with rfl | rfl
    · rw [lookupArgs_one, (keysT_singlesT_char hg hu).2.1]
      rfl
    · rw [lookupArgs_one, (keysT_singlesT_char hg hw).2.1]
      rfl
  rcases make_rules_total htot with ⟨rs, hrs⟩
  refine ⟨rs, hrs, ?_⟩
  intro r hr
  rcases make_rules_elim hrs r hr with ⟨key, vv, hmem, c, hc, hleft, hright, haf, hlf⟩
  have hkey : key ∈ keysT (pairsT lines) := List.mem_map.mpr ⟨(key, vv), hmem, rfl⟩
  rcases hcase key hkey c hc with ⟨u, w, hkeyJ, hlt, hu, hw, hl, hs, hcval⟩
  have hvv : vv = support [u, w] lines := by
    have h4 := lookupT_of_mem hndP hmem
    rw [hl] at h4
    injection h4 with h5
    exact h5.symm
  have haf2 : r.all_freq = support [u, w] lines := haf.trans hvv
  have hsub : ∀ x ∈ c, x ∈ ([u, w] : List PyStr) := by
    rcases hcval with rfl | rfl
    · intro x hx
      rw [List.mem_singleton.mp hx]
      exact List.mem_cons_self _ _
    · intro x hx
      rw [List.mem_singleton.mp hx]
      exact List.mem_cons_of_mem _ (List.mem_cons_self _ _)
  have hlf2 : ∃ x, c = [x] ∧ r.left_freq = support [x] lines ∧ x ∈ ([u, w] : List PyStr) := by
    rcases hcval with rfl | rfl
    · rw [lookupArgs_one, (keysT_singlesT_char hg hu).2.1] at hlf
      injection hlf with h5
      exact ⟨u, rfl, h5.symm, List.mem_cons_self _ _⟩
    · rw [lookupArgs_one, (keysT_singlesT_char hg hw).2.1] at hlf
      injection hlf with h5
      exact ⟨w, rfl, h5.symm, List.mem_cons_of_mem _ (List.mem_cons_self _ _)⟩
  rcases hlf2 with ⟨x, hcx, hlfv, hxmem⟩
  have hmono : support [u, w] lines ≤ support [x] lines :=
    support_mono lines (by
      intro y hy
      rw [List.mem_singleton.mp hy]
      exact hxmem)
  refine ⟨?_, ?_, ?_⟩
  · rw [haf2]
    exact hs
  · rw [hlfv]
    exact le_trans hs (hvv ▸ hmono)
  · rw [haf2, hlfv]
    exact hmono

theorem tokList_triple {u v w : PyStr} (hu : IsTok u) (hv : IsTok v) (hw : IsTok w) :
    TokList [u, v, w] := by
  intro x hx
  rcases List.mem_cons.mp hx with rfl | hx
  · exact hu
  · rcases List.mem_cons.mp hx with rfl | hx
    · exact hv
    · rw [List.mem_singleton.mp hx]
      exact hw

theorem triple_rule_facts {lines : List (List PyStr)} (hg : GoodLines lines) :
    ∃ rs, make_rules (triplesT lines) [singlesT lines, pairsT lines] = some rs ∧
      ∀ r ∈ rs, FREQ_THRES ≤ r.all_freq ∧ FREQ_THRES ≤ r.left_freq ∧
        r.all_freq ≤ r.left_freq := by
  have hndT : NodupKeys (triplesT lines) :=
    nodupKeys_prune (nodupKeys_countLevel (make_candidates_nodup _) 3 lines)
  have hcase : ∀ key ∈ keysT (triplesT lines), ∀ c ∈ ruleCombos (splitT key),
      ∃ u v w, key = joinT [u, v, w] ∧
        lookupT (triplesT lines) key = some (support [u, v, w] lines) ∧
        FREQ_THRES ≤ support [u, v, w] lines ∧
        lookupArgs [singlesT lines, pairsT lines] c = some (support c lines) ∧
        (∀ x ∈ c, x ∈ ([u, v, w] : List PyStr)) := by
    intro key hkey c hc
    rcases keysT_triplesT_char hg hkey with
      ⟨u, v, w, hkeyJ, toku, tokv, tokw, huv, hvw, hu, hv, hw, hpuv, hpuw, hlookup, hsup⟩
    have huw : strLtB u w = true := strLtB_trans huv hvw
    have hsplit : splitT key = [u, v, w] := by
      rw [hkeyJ]
      exact splitT_joinT (tokList_triple toku tokv tokw)
    rw [hsplit] at hc
    rcases mem_ruleCombos.mp hc with ⟨i, h1, h2, hci⟩
    have hm : ∀ c2 : List PyStr, (∀ x ∈ c2, x ∈ ([u, v, w] : List PyStr)) →
        FREQ_THRES ≤ support c2 lines :=
      fun c2 hs2 => le_trans hsup (support_mono lines hs2)
    have hsub_uv : ∀ x ∈ ([u, v] : List PyStr), x ∈ ([u, v, w] : List PyStr) := by
      intro x hx
      rcases List.mem_cons.mp hx with rfl | hx
      · exact List.mem_cons_self _ _
      · rw [List.mem_singleton.mp hx]
        exact List.mem_cons_of_mem _ (List.mem_cons_self _ _)
    have hsub_uw : ∀ x ∈ ([u, w] : List PyStr), x ∈ ([u, v, w] : List PyStr) := by
      intro x hx
      rcases List.mem_cons.mp hx with rfl | hx
      · exact List.mem_cons_self _ _
      · rw [List.mem_singleton.mp hx]
        exact List.mem_cons_of_mem _ (List.mem_cons_of_mem _ (List.mem_cons_self _ _))
    have hsub_vw : ∀ x ∈ ([v, w] : List PyStr), x ∈ ([u, v, w] : List PyStr) := by
      intro x hx
      rcases List.mem_cons.mp hx with rfl | hx
      · exact List.mem_cons_of_mem _ (List.mem_cons_self _ _)
      · rw [List.mem_singleton.mp hx]
        exact List.mem_cons_of_mem _ (List.mem_cons_of_mem _ (List.mem_cons_self _ _))
    have hl_uv : lookupT (pairsT lines) (joinT [u, v]) = some (support [u, v] lines) :=
      pairsT_intro hg hu hv huv (hm [u, v] hsub_uv)
    have hl_uw : lookupT (pairsT lines) (joinT [u, w]) = some (support [u, w] lines) :=
      pairsT_intro hg hu hw huw (hm [u, w] hsub_uw)
    have hl_vw : lookupT (pairsT lines) (joinT [v, w]) = some (support [v, w] lines) :=
      pairsT_intro hg hv hw hvw (hm [v, w] hsub_vw)
    have hi : i = 1 ∨ i = 2 := by
      simp only [List.length_cons, List.length_nil] at h2
      omega
    rcases hi with rfl | rfl
    · rw [show combinations 1 [u, v, w] = [[u], [v], [w]] from rfl] at hci
      rcases List.mem_cons.mp hci with rfl | hci
      · refine ⟨u, v, w, hkeyJ, hlookup, hsup, ?_, ?_⟩
        · rw [lookupArgs_one, (keysT_singlesT_char hg hu).2.1]
        · intro x hx
          rw [List.mem_singleton.mp hx]
          exact List.mem_cons_self _ _
      · rcases List.mem_cons.mp hci with rfl | hci
        · refine ⟨u, v, w, hkeyJ, hlookup, hsup, ?_, ?_⟩
          · rw [lookupArgs_one, (keysT_singlesT_char hg hv).2.1]
          · intro x hx
            rw [List.mem_singleton.mp hx]
            exact List.mem_cons_of_mem _ (List.mem_cons_self _ _)
        · rw [List.mem_singleton.mp hci]
          refine ⟨u, v, w, hkeyJ, hlookup, hsup, ?_, ?_⟩
          · rw [lookupArgs_one, (keysT_singlesT_char hg hw).2.1]
          · intro x hx
            rw [List.mem_singleton.mp hx]
            exact List.mem_cons_of_mem _ (List.mem_cons_of_mem _ (List.mem_cons_self _ _))
    · rw [show combinations 2 [u, v, w] = [[u, v], [u, w], [v, w]] from rfl] at hci
      rcases List.mem_cons.mp hci with rfl | hci
      · exact ⟨u, v, w, hkeyJ, hlookup, hsup, by rw [lookupArgs_two, hl_uv], hsub_uv⟩
      · rcases List.mem_cons.mp hci with rfl | hci
        · exact ⟨u, v, w, hkeyJ, hlookup, hsup, by rw [lookupArgs_two, hl_uw], hsub_uw⟩
        · rw [List.mem_singleton.mp hci]
          exact ⟨u, v, w, hkeyJ, hlookup, hsup, by rw [lookupArgs_two, hl_vw], hsub_vw⟩
  have htot : ∀ key ∈ keysT (triplesT lines), ∀ c ∈ ruleCombos (splitT key),
      (lookupArgs [singlesT lines, pairsT lines] c).isSome = true := by
    intro key hkey c hc
    rcases hcase key hkey c hc with ⟨u, v, w, -, -, -, hargs, -⟩
    rw [hargs]
    rfl
  rcases make_rules_total htot with ⟨rs, hrs⟩
  refine ⟨rs, hrs, ?_⟩
  intro r hr
  rcases make_rules_elim hrs r hr with ⟨key, vv, hmem, c, hc, hleft, hright, haf, hlf⟩
  have hkeymem : key ∈ keysT (triplesT lines) := List.mem_map.mpr ⟨(key, vv), hmem, rfl⟩
  rcases hcase key hkeymem c hc with ⟨u, v, w, hkeyJ, hlookup, hsup, hargs, hsubc⟩
  have hvv : vv = support [u, v, w] lines := by
    have h4 := lookupT_of_mem hndT hmem
    rw [hlookup] at h4
    injection h4 with h5
    exact h5.symm
  have hlfv : r.left_freq = support c lines := by
    rw [hargs] at hlf
    injection hlf with h5
    exact h5.symm
  have hmono : support [u, v, w] lines ≤ support c lines := support_mono lines hsubc
  refine ⟨?_, ?_, ?_⟩
  · rw [haf, hvv]
    exact hsup
  · rw [hlfv]
    exact le_trans hsup hmono
  · rw [haf, hvv, hlfv]
    exact hmono

theorem pair_combo_lookup {lines : List (List PyStr)} (hg : GoodLines lines) :
    ∀ key ∈ keysT (pairsT lines), ∀ c ∈ ruleCombos (splitT key),
      ∃ v, lookupArgs [singlesT lines] c = some v ∧ FREQ_THRES ≤ v := by
  intro key hkey c hc
  rcases keysT_pairsT_char hg hkey with ⟨u, w, hkeyJ, toku, tokw, hlt, hu, hw, hl, hs⟩
  have hsplit : splitT key = [u, w] := by
    rw [hkeyJ]
    exact splitT_joinT (tokList_pair toku tokw)
  rw [hsplit] at hc
  rcases mem_ruleCombos.mp hc with ⟨i, h1, h2, hci⟩
  have hi : i = 1 := by
    simp only [List.length_cons, List.length_nil] at h2
    omega
  subst hi
  rw [show combinations 1 [u, w] = [[u], [w]] from rfl] at hci
  rcases List.mem_cons.mp hci with rfl | h3
  · exact ⟨support [u] lines, by rw [lookupArgs_one, (keysT_singlesT_char hg hu).2.1],
      (keysT_singlesT_char hg hu).2.2⟩
  · rw [List.mem_singleton.mp h3]
    exact ⟨support [w] lines, by rw [lookupArgs_one, (keysT_singlesT_char hg hw).2.1],
      (keysT_singlesT_char hg hw).2.2⟩

theorem triple_combo_lookup {lines : List (List PyStr)} (hg : GoodLines lines) :
    ∀ key ∈ keysT (triplesT lines), ∀ c ∈ ruleCombos (splitT key),
      ∃ v, lookupArgs [singlesT lines, pairsT lines] c = some v ∧ FREQ_THRES ≤ v := by
  intro key hkey c hc
  rcases keysT_triplesT_char hg hkey with
    ⟨u, v, w, hkeyJ, toku, tokv, tokw, huv, hvw, hu, hv, hw, hpuv, hpuw, hlookup, hsup⟩
  have huw : strLtB u w = true := strLtB_trans huv hvw
  have hsplit : splitT key = [u, v, w] := by
    rw [hkeyJ]
    exact splitT_joinT (tokList_triple toku tokv tokw)
  rw [hsplit] at hc
  rcases mem_ruleCombos.mp hc with ⟨i, h1, h2, hci⟩
  have hm : ∀ c2 : List PyStr, (∀ x ∈ c2, x ∈ ([u, v, w] : List PyStr)) →
      FREQ_THRES ≤ support c2 lines :=
    fun c2 hs2 => le_trans hsup (support_mono lines hs2)
  have hmuv : FREQ_THRES ≤ support [u, v] lines := by
    refine hm [u, v] ?_
    intro x hx
    rcases List.mem_cons.mp hx with rfl | hx
    · exact List.mem_cons_self _ _
    · rw [List.mem_singleton.mp hx]
      exact List.mem_cons_of_mem _ (List.mem_cons_self _ _)
  have hmuw : FREQ_THRES ≤ support [u, w] lines := by
    refine hm [u, w] ?_
    intro x hx
    rcases List.mem_cons.mp hx with rfl | hx
    · exact List.mem_cons_self _ _
    · rw [List.mem_singleton.mp hx]
      exact List.mem_cons_of_mem _ (List.mem_cons_of_mem _ (List.mem_cons_self _ _))
  have hmvw : FREQ_THRES ≤ support [v, w] lines := by
    refine hm [v, w] ?_
    intro x hx
    rcases List.mem_cons.mp hx with rfl | hx
    · exact List.mem_cons_of_mem _ (List.mem_cons_self _ _)
    · rw [List.mem_singleton.mp hx]
      exact List.mem_cons_of_mem _ (List.mem_cons_of_mem _ (List.mem_cons_self _ _))
  have hi : i = 1 ∨ i = 2 := by
    simp only [List.length_cons, List.length_nil] at h2
    omega
  rcases hi with rfl | rfl
  · rw [show combinations 1 [u, v, w] = [[u], [v], [w]] from rfl] at hci
    rcases List.mem_cons.mp hci with rfl | hci
    · exact ⟨support [u] lines, by rw [lookupArgs_one, (keysT_singlesT_char hg hu).2.1],
        (keysT_singlesT_char hg hu).2.2⟩
    · rcases List.mem_cons.mp hci with rfl | hci
      · exact ⟨support [v] lines, by rw [lookupArgs_one, (keysT_singlesT_char hg hv).2.1],
          (keysT_singlesT_char hg hv).2.2⟩
      · rw [List.mem_singleton.mp hci]
        exact ⟨support [w] lines, by rw [lookupArgs_one, (keysT_singlesT_char hg hw).2.1],
          (keysT_singlesT_char hg hw).2.2⟩
  · rw [show combinations 2 [u, v, w] = [[u, v], [u, w], [v, w]] from rfl] at hci
    rcases List.mem_cons.mp hci with rfl | hci
    · exact ⟨support [u, v] lines,
        by rw [lookupArgs_two, pairsT_intro hg hu hv huv hmuv], hmuv⟩
    · rcases List.mem_cons.mp hci with rfl | hci
      · exact ⟨support [u, w] lines,
          by rw [lookupArgs_two, pairsT_intro hg hu hw huw hmuw], hmuw⟩
      · rw [List.mem_singleton.mp hci]
        exact ⟨support [v, w] lines,
          by rw [lookupArgs_two, pairsT_intro hg hv hw hvw hmvw], hmvw⟩

/-- C5: in the pipeline composition over duplicate-free sorted transaction lines,
FREQ_THRES is positive, every antecedent combination of every frequent pair key
finds its frequency in the pruned singles table with value at least FREQ_THRES,
every antecedent combination of every frequent triple key finds its frequency in
the pruned singles or pairs table with value at least FREQ_THRES, and hence
make_rules succeeds on both levels (no key-missing error) with every rule's
left_freq at least FREQ_THRES, so no confidence computation divides by zero. -/
theorem C5_antecedent_lookup_safe {lines : List (List PyStr)} (hg : GoodLines lines) :
    0 < FREQ_THRES ∧
    (∀ key ∈ keysT (pairsT lines), ∀ c ∈ ruleCombos (splitT key),
      ∃ v, lookupArgs [singlesT lines] c = some v ∧ FREQ_THRES ≤ v) ∧
    (∀ key ∈ keysT (triplesT lines), ∀ c ∈ ruleCombos (splitT key),
      ∃ v, lookupArgs [singlesT lines, pairsT lines] c = some v ∧ FREQ_THRES ≤ v) ∧
    (∃ rs, make_rules (pairsT lines) [singlesT lines] = some rs ∧
      ∀ r ∈ rs, FREQ_THRES ≤ r.left_freq ∧ 0 < r.left_freq) ∧
    (∃ rs, make_rules (triplesT lines) [singlesT lines, pairsT lines] = some rs ∧
      ∀ r ∈ rs, FREQ_THRES ≤ r.left_freq ∧ 0 < r.left_freq) := by
  refine ⟨by decide, pair_combo_lookup hg, triple_combo_lookup hg, ?_, ?_⟩
  · rcases pair_rule_facts hg with ⟨rs, hrs, hb⟩
    refine ⟨rs, hrs, ?_⟩
    intro r hr
    have h1 := (hb r hr).2.1
    exact ⟨h1, lt_of_lt_of_le (by decide) h1⟩
  · rcases triple_rule_facts hg with ⟨rs, hrs, hb⟩
    refine ⟨rs, hrs, ?_⟩
    intro r hr
    have h1 := (hb r hr).2.1
    exact ⟨h1, lt_of_lt_of_le (by decide) h1⟩

theorem C5_antecedent_lookup_safe_witness :
    GoodLines (List.replicate 100 [((['a'] : PyStr)), ((['b'] : PyStr))]) ∧
    (0 < FREQ_THRES ∧
    (∀ key ∈ keysT (pairsT (List.replicate 100 [((['a'] : PyStr)), ((['b'] : PyStr))])),
      ∀ c ∈ ruleCombos (splitT key),
      ∃ v, lookupArgs [singlesT (List.replicate 100 [((['a'] : PyStr)), ((['b'] : PyStr))])] c =
        some v ∧ FREQ_THRES ≤ v) ∧
    (∀ key ∈ keysT (triplesT (List.replicate 100 [((['a'] : PyStr)), ((['b'] : PyStr))])),
      ∀ c ∈ ruleCombos (splitT key),
      ∃ v, lookupArgs [singlesT (List.replicate 100 [((['a'] : PyStr)), ((['b'] : PyStr))]),
        pairsT (List.replicate 100 [((['a'] : PyStr)), ((['b'] : PyStr))])] c =
        some v ∧ FREQ_THRES ≤ v) ∧
    (∃ rs, make_rules (pairsT (List.replicate 100 [((['a'] : PyStr)), ((['b'] : PyStr))]))
        [singlesT (List.replicate 100 [((['a'] : PyStr)), ((['b'] : PyStr))])] = some rs ∧
      ∀ r ∈ rs, FREQ_THRES ≤ r.left_freq ∧ 0 < r.left_freq) ∧
    (∃ rs, make_rules (triplesT (List.replicate 100 [((['a'] : PyStr)), ((['b'] : PyStr))]))
        [singlesT (List.replicate 100 [((['a'] : PyStr)), ((['b'] : PyStr))]),
         pairsT (List.replicate 100 [((['a'] : PyStr)), ((['b'] : PyStr))])] = some rs ∧
      ∀ r ∈ rs, FREQ_THRES ≤ r.left_freq ∧ 0 < r.left_freq)) :=
  ⟨by decide, C5_antecedent_lookup_safe (by decide)⟩

/-- C6: every Rule produced by the pipeline (the ranked pair-rule and
triple-rule lists built from the pruned frequency tables over duplicate-free
sorted transaction lines) has 0 < all_freq and all_freq <= left_freq, hence its
confidence all_freq / left_freq lies in the half-open interval (0, 1]. -/
theorem C6_confidence_bounds {lines : List (List PyStr)} (hg : GoodLines lines) :
    (∃ rs, pairRules lines = some rs ∧ ∀ r ∈ rs,
      0 < r.all_freq ∧ r.all_freq ≤ r.left_freq ∧
      0 < r.confidence ∧ r.confidence ≤ 1) ∧
    (∃ rs, tripleRules lines = some rs ∧ ∀ r ∈ rs,
      0 < r.all_freq ∧ r.all_freq ≤ r.left_freq ∧
      0 < r.confidence ∧ r.confidence ≤ 1) := by
  have hbound : ∀ r : Rule, FREQ_THRES ≤ r.all_freq → FREQ_THRES ≤ r.left_freq →
      r.all_freq ≤ r.left_freq →
      0 < r.all_freq ∧ r.all_freq ≤ r.left_freq ∧ 0 < r.confidence ∧ r.confidence ≤ 1 := by
    intro r ha hl hal
    have ha0 : 0 < r.all_freq := lt_of_lt_of_le (by decide) ha
    have hl0 : 0 < r.left_freq := lt_of_lt_of_le (by decide) hl
    have haQ : (0 : ℚ) < (r.all_freq : ℚ) := by
      exact_mod_cast ha0
    have hlQ : (0 : ℚ) < (r.left_freq : ℚ) := by
      exact_mod_cast hl0
    refine ⟨ha0, hal, ?_, ?_⟩
    · exact div_pos haQ hlQ
    · show (r.all_freq : ℚ) / (r.left_freq : ℚ) ≤ 1
      rw [div_le_one hlQ]
      exact_mod_cast hal
  constructor
  · rcases pair_rule_facts hg with ⟨rs, hrs, hb⟩
    refine ⟨pySortedRev rs, ?_, ?_⟩
    · unfold pairRules
      rw [hrs]
      rfl
    · intro r hr
      have hr2 : r ∈ rs := (pySortedRev_perm rs).mem_iff.mp hr
      rcases hb r hr2 with ⟨ha, hl, hal⟩
      exact hbound r ha hl hal
  · rcases triple_rule_facts hg with ⟨rs, hrs, hb⟩
    refine ⟨pySortedRev rs, ?_, ?_⟩
    · unfold tripleRules
      rw [hrs]
      rfl
    · intro r hr
      have hr2 : r ∈ rs := (pySortedRev_perm rs).mem_iff.mp hr
      rcases hb r hr2 with ⟨ha, hl, hal⟩
      exact hbound r ha hl hal

theorem C6_confidence_bounds_witness :
    GoodLines (List.replicate 100 [((['a'] : PyStr)), ((['b'] : PyStr))]) ∧
    ((∃ rs, pairRules (List.replicate 100 [((['a'] : PyStr)), ((['b'] : PyStr))]) = some rs ∧
      ∀ r ∈ rs, 0 < r.all_freq ∧ r.all_freq ≤ r.left_freq ∧
        0 < r.confidence ∧ r.confidence ≤ 1) ∧
    (∃ rs, tripleRules (List.replicate 100 [((['a'] : PyStr)), ((['b'] : PyStr))]) = some rs ∧
      ∀ r ∈ rs, 0 < r.all_freq ∧ r.all_freq ≤ r.left_freq ∧
        0 < r.confidence ∧ r.confidence ≤ 1)) :=
  ⟨by decide, C6_confidence_bounds (by decide)⟩

end Miner
